import Mathlib

/-!
Verification development for the StellarisDataParser repository.

The configuration-language parser (`lib/parser/parser.go`) and the dependency
graph builder (`lib/tree`) are embedded shallowly: Go strings become `String`
(processed as `List Char`), Go `interface\x7b\x7d` values become the closed
inductive `Value`, Go maps become association lists with overwrite-insert
(`insertA`) and first-match lookup (`lookupA`), and the breadth-first leveling
loop becomes a fuel-indexed step function (`levelLoop`).

Go `float64` values produced by `strconv.ParseFloat` are modelled exactly at
the syntax/classification level: `goParseFloat` accepts precisely the token
syntax Go accepts (decimal and hexadecimal mantissas, exponents, underscores,
inf/nan specials) and rejects overflowing literals (Go returns `ErrRange`, a
non-nil error, so the caller falls through to the string branch).  The payload
of an accepted literal is kept as an exact rational (`GoFloat`); no claim
inspects IEEE-rounded values.
-/

set_option maxRecDepth 100000

namespace Stellaris

/-! ## Text helpers modelling the Go standard library -/

/-- The whitespace set of Go `unicode.IsSpace` restricted to the characters it
recognises in the Latin-1 range (`strings.TrimSpace`, `strings.Fields`). -/
def isGoSpace (c : Char) : Bool :=
  c = ' ' ∨ c = '\t' ∨ c = '\n' ∨ c = '\x0b' ∨ c = '\x0c' ∨ c = '\r' ∨
  c = '\x85' ∨ c = '\xa0'

/-- `strings.TrimSpace` on the character list. -/
def goTrimSpaceL (cs : List Char) : List Char :=
  ((cs.dropWhile isGoSpace).reverse.dropWhile isGoSpace).reverse

/-- `strings.TrimSpace`. -/
def goTrimSpace (s : String) : String :=
  ⟨goTrimSpaceL s.data⟩

/-- `strings.TrimRight s cutset` for a one-character cutset. -/
def goTrimRightChar (s : String) (c : Char) : String :=
  ⟨(s.data.reverse.dropWhile (· = c)).reverse⟩

/-- `strings.Trim s cutset` for a one-character cutset. -/
def goTrimChar (s : String) (c : Char) : String :=
  ⟨((s.data.dropWhile (· = c)).reverse.dropWhile (· = c)).reverse⟩

/-- `strings.Trim s cutset` for a general cutset given as a predicate. -/
def goTrimSet (s : String) (p : Char → Bool) : String :=
  ⟨((s.data.dropWhile p).reverse.dropWhile p).reverse⟩

/-- `strings.Count s sub` for a one-character substring. -/
def countChar (s : String) (c : Char) : Int :=
  (s.data.filter (· = c)).length

/-- `strings.Split s sep` for the one-character separator, on char lists.
`splitSep [] = [[]]` just as Go returns one empty field for the empty string. -/
def splitSep : List Char → Char → List (List Char)
  | [], _ => [[]]
  | c :: cs, sep =>
    if c = sep then [] :: splitSep cs sep
    else
      match splitSep cs sep with
      | g :: gs => (c :: g) :: gs
      | [] => [[c]]

/-- `strings.Split content "\n"`. -/
def goSplitLines (s : String) : List String :=
  (splitSep s.data '\n').map (fun g => ⟨g⟩)

/-- `strings.SplitN line "=" 2`: `none` when the separator does not occur,
otherwise the text before and after the first occurrence. -/
def goSplitFirst : List Char → Char → Option (List Char × List Char)
  | [], _ => none
  | c :: cs, sep =>
    if c = sep then some ([], cs)
    else
      match goSplitFirst cs sep with
      | some (l, r) => some (c :: l, r)
      | none => none

/-- Accumulator pass for `strings.Fields`: `acc` holds the current field in
reverse. -/
def goFieldsAux : List Char → List Char → List (List Char)
  | [], acc => if acc = [] then [] else [acc.reverse]
  | c :: cs, acc =>
    if isGoSpace c then
      if acc = [] then goFieldsAux cs [] else acc.reverse :: goFieldsAux cs []
    else goFieldsAux cs (c :: acc)

/-- `strings.Fields`: split around runs of whitespace. -/
def goFields (s : String) : List String :=
  (goFieldsAux s.data []).map (fun g => ⟨g⟩)

/-! ## The dynamic value type

The Go code stores parsed values as `interface\x7b\x7d`; the closed variant type
below covers every shape `parseValue` / `parseBlock` / `parseArray` produce. -/

/-- The result of Go `strconv.ParseFloat`, kept exact: a finite literal is the
exact rational value of the token; infinities and NaN come from the special
spellings `inf` / `infinity` / `nan`. -/
inductive GoFloat where
  | finite (q : ℚ)
  | inf (neg : Bool)
  | nan
  deriving DecidableEq, Repr

/-- A parsed dynamic value (`interface\x7b\x7d` in the source). -/
inductive Value where
  | bool (b : Bool)
  | int (n : Int)
  | float (f : GoFloat)
  | str (s : String)
  | arr (elems : List Value)
  | map (entries : List (String × Value))

/-- Association-list lookup standing in for Go map indexing. -/
def lookupA (m : List (String × Value)) (k : String) : Option Value :=
  match m with
  | [] => none
  | (k', v) :: rest => if k' = k then some v else lookupA rest k

/-- Go map assignment `m[k] = v`: overwrite the existing entry in place, or
append a new one.  Lookup order is made deterministic by the list. -/
def insertA (m : List (String × Value)) (k : String) (v : Value) : List (String × Value) :=
  if (lookupA m k).isSome then
    m.map (fun p => if p.1 = k then (k, v) else p)
  else
    m ++ [(k, v)]

/-! ## Go `strconv` models -/

/-- Single-character `strings.HasPrefix`. -/
def headIs (s : String) (c : Char) : Bool :=
  match s.data with
  | d :: _ => d = c
  | [] => false

/-- Single-character `strings.HasSuffix`. -/
def lastIs (s : String) (c : Char) : Bool :=
  match s.data.getLast? with
  | some d => d = c
  | none => false

/-- ASCII lower-casing as Go `strconv`'s `lower` (used case-insensitively on
exponent characters and special spellings). -/
def lowerC (c : Char) : Char :=
  if 'A' ≤ c ∧ c ≤ 'Z' then Char.ofNat (c.toNat + 32) else c

/-- Case-insensitive equality against an ASCII pattern. -/
def eqIgnoreCase (cs : List Char) (t : List Char) : Bool :=
  cs.map lowerC = t

/-- Numeric value of a digit list in the given base. -/
def digitsVal (base : Nat) (ds : List Char) : Nat :=
  ds.foldl (fun n c =>
    n * base + (if c.isDigit then c.toNat - 48 else (lowerC c).toNat - 87)) 0

/-- Hexadecimal digit test. -/
def isHexDigit (c : Char) : Bool :=
  c.isDigit ∨ ('a' ≤ lowerC c ∧ lowerC c ≤ 'f')

/-- `strconv.Atoi` = `ParseInt(s, 10, 64)`: optional sign, one or more decimal
digits (no underscores at an explicit base), and the value must fit in a
64-bit signed integer — Go reports `ErrRange` (a non-nil error) otherwise, so
the caller treats the token as not-an-integer. -/
def goAtoi (s : String) : Option Int :=
  match s.data with
  | [] => none
  | c :: rest =>
    let p : Bool × List Char :=
      if c = '-' then (true, rest)
      else if c = '+' then (false, rest)
      else (false, c :: rest)
    if p.2 = [] ∨ ¬ p.2.all Char.isDigit then none
    else
      let n : Int := digitsVal 10 p.2
      let v := if p.1 then -n else n
      if -(2 ^ 63) ≤ v ∧ v ≤ 2 ^ 63 - 1 then some v else none

/-- The special spellings accepted by `strconv.ParseFloat`: optionally signed
`inf` / `infinity`, and unsigned `nan` (all case-insensitive); Go's `special`
falls through from the sign case only into the infinity case, so a signed
`nan` is rejected. -/
def goFloatSpecial (cs : List Char) : Option GoFloat :=
  match cs with
  | [] => none
  | c :: rest =>
    if c = '+' ∨ c = '-' then
      if eqIgnoreCase rest ['i', 'n', 'f'] ∨
         eqIgnoreCase rest ['i', 'n', 'f', 'i', 'n', 'i', 't', 'y'] then
        some (.inf (c = '-'))
      else none
    else if eqIgnoreCase cs ['i', 'n', 'f'] ∨
            eqIgnoreCase cs ['i', 'n', 'f', 'i', 'n', 'i', 't', 'y'] then
      some (.inf false)
    else if eqIgnoreCase cs ['n', 'a', 'n'] then some .nan
    else none

/-- The mantissa loop of Go `readFloat`: consume digits, at most one dot and
any embedded underscores; result is (digits, dot position, saw-underscore,
unconsumed rest).  A second dot stops the loop with the dot unconsumed. -/
def readMantissaAux (hex : Bool) : List Char → List Char → Option Nat → Bool →
    (List Char × Option Nat × Bool × List Char)
  | [], ds, dot, us => (ds.reverse, dot, us, [])
  | c :: cs, ds, dot, us =>
    if c = '_' then readMantissaAux hex cs ds dot true
    else if c = '.' then
      match dot with
      | some _ => (ds.reverse, dot, us, c :: cs)
      | none => readMantissaAux hex cs ds (some ds.length) us
    else if c.isDigit ∨ (hex ∧ isHexDigit c) then readMantissaAux hex cs (c :: ds) dot us
    else (ds.reverse, dot, us, c :: cs)

/-- The exponent-digit loop of Go `readFloat` (digits and underscores). -/
def readExpDigits : List Char → Int → Bool → (Int × Bool × List Char)
  | [], e, us => (e, us, [])
  | c :: cs, e, us =>
    if c = '_' then readExpDigits cs e true
    else if c.isDigit then readExpDigits cs (e * 10 + ((c.toNat : Int) - 48)) us
    else (e, us, c :: cs)

/-- Inner loop of Go `strconv.underscoreOK`; `saw` tracks the class of the
previous character (as in the Go source: start, digit, underscore, other). -/
def underscoreOKLoop (hex : Bool) : List Char → Char → Bool
  | [], saw => saw ≠ '_'
  | c :: cs, saw =>
    if c.isDigit ∨ (hex ∧ 'a' ≤ lowerC c ∧ lowerC c ≤ 'f') then underscoreOKLoop hex cs '0'
    else if c = '_' then (if saw ≠ '0' then false else underscoreOKLoop hex cs '_')
    else if saw = '_' then false
    else underscoreOKLoop hex cs '!'

/-- Go `strconv.underscoreOK`: underscores may appear only between digits or
directly after a base prefix. -/
def underscoreOK (cs0 : List Char) : Bool :=
  let cs :=
    match cs0 with
    | c :: rest => if c = '-' ∨ c = '+' then rest else cs0
    | [] => []
  match cs with
  | c0 :: c1 :: rest =>
    if c0 = '0' ∧ (lowerC c1 = 'b' ∨ lowerC c1 = 'o' ∨ lowerC c1 = 'x') then
      underscoreOKLoop (lowerC c1 = 'x') rest '0'
    else underscoreOKLoop false (c0 :: c1 :: rest) '^'
  | _ => underscoreOKLoop false cs '^'

/-- Exact rational value built at the end of a successful `readFloat` parse,
guarded by the underscore-placement check. -/
def finishFloat (neg hex : Bool) (ds : List Char) (dp : Nat) (e : Int)
    (us : Bool) (orig : List Char) : Option ℚ :=
  if us ∧ ¬ underscoreOK orig then none
  else
    let nd := ds.length
    let d : ℚ := (digitsVal (if hex then 16 else 10) ds : ℚ)
    let q : ℚ :=
      if hex then d * (2 : ℚ) ^ (4 * ((dp : Int) - (nd : Int)) + e)
      else d * (10 : ℚ) ^ (((dp : Int) - (nd : Int)) + e)
    some (if neg then -q else q)

/-- The numeric branch of Go `strconv.ParseFloat`: optional sign, decimal or
`0x` hexadecimal mantissa, an exponent that is optional for decimal and
mandatory for hexadecimal, full consumption of the input. -/
def readFloatNum (cs0 : List Char) : Option ℚ :=
  match cs0 with
  | [] => none
  | _ =>
    let sp : Bool × List Char :=
      match cs0 with
      | c :: rest =>
        if c = '-' then (true, rest)
        else if c = '+' then (false, rest)
        else (false, cs0)
      | [] => (false, [])
    let neg := sp.1
    let cs := sp.2
    let hex : Bool :=
      match cs with
      | c0 :: c1 :: _ :: _ => c0 = '0' ∧ lowerC c1 = 'x'
      | _ => false
    let cs1 := if hex then cs.drop 2 else cs
    match readMantissaAux hex cs1 [] none false with
    | (ds, dotPos, us1, rest1) =>
      if ds = [] then none
      else
        let nd := ds.length
        let dp := match dotPos with | some d => d | none => nd
        match rest1 with
        | c :: rest2 =>
          if lowerC c = (if hex then 'p' else 'e') then
            let sg : Int × List Char :=
              match rest2 with
              | d :: r =>
                if d = '-' then (-1, r)
                else if d = '+' then (1, r)
                else (1, d :: r)
              | [] => (1, [])
            match sg.2 with
            | d :: _ =>
              if d.isDigit then
                match readExpDigits sg.2 0 false with
                | (e, us2, rest4) =>
                  if rest4 = [] then finishFloat neg hex ds dp (sg.1 * e) (us1 ∨ us2) cs0
                  else none
              else none
            | [] => none
          else none
        | [] =>
          if hex then none
          else finishFloat neg hex ds dp 0 us1 cs0

/-- A finite value Go would round to `±Inf`, which makes `ParseFloat` report
`ErrRange` (a non-nil error): at or beyond the IEEE-754 binary64
round-to-infinity threshold. -/
def floatOverflows (q : ℚ) : Bool :=
  (2 : ℚ) ^ (1024 : ℕ) - (2 : ℚ) ^ (970 : ℕ) ≤ |q|

/-- `strconv.ParseFloat(s, 64)` restricted to success/failure and the exact
literal value: `none` exactly when Go returns a non-nil error (bad syntax or
overflow). -/
def goParseFloat (s : String) : Option GoFloat :=
  match goFloatSpecial s.data with
  | some f => some f
  | none =>
    match readFloatNum s.data with
    | none => none
    | some q => if floatOverflows q then none else some (.finite q)

/-! ## The Value Parser (`parseValue`) -/

/-- Branch order of `parseValue` after stripping: quoted string, boolean
spellings, integer, float, raw string fallback. -/
def parseValueStripped (v : String) : Value :=
  if headIs v '"' ∧ lastIs v '"' then .str (goTrimChar v '"')
  else if v = "yes" ∨ v = "true" then .bool true
  else if v = "no" ∨ v = "false" then .bool false
  else
    match goAtoi v with
    | some n => .int n
    | none =>
      match goParseFloat v with
      | some f => .float f
      | none => .str v

/-- `parseValue`: trim whitespace, strip trailing commas, then classify by
ordered trial.  Total by construction. -/
def parseValue (value : String) : Value :=
  parseValueStripped (goTrimRightChar (goTrimSpace value) ',')

/-! ## The Block Extractor (`extractBlock`) -/

/-- The mutable locals of `extractBlock`'s scan. -/
structure ExtState where
  braceDepth : Int
  started : Bool
  firstBrace : Bool
  acc : List Char

/-- The write at the bottom of `extractBlock`'s character loop: capture the
character only once inside the block. -/
def writeMaybe (st : ExtState) (c : Char) : ExtState :=
  if st.started ∧ st.braceDepth > 0 then { st with acc := st.acc ++ [c] } else st

/-- One character of `extractBlock`'s scan; `Sum.inr` is the early return with
the accumulated body when the matching close is found. -/
def processChar (st : ExtState) (c : Char) : ExtState ⊕ List Char :=
  if c = '{' then
    let st1 := { st with braceDepth := st.braceDepth + 1, started := true }
    if st1.firstBrace then .inl { st1 with firstBrace := false }
    else .inl (writeMaybe st1 c)
  else if c = '}' then
    let st1 := { st with braceDepth := st.braceDepth - 1 }
    if st1.braceDepth = 0 then .inr st1.acc
    else .inl (writeMaybe st1 c)
  else .inl (writeMaybe st c)

/-- One line of `extractBlock`'s scan. -/
def processChars : List Char → ExtState → ExtState ⊕ List Char
  | [], st => .inl st
  | c :: cs, st =>
    match processChar st c with
    | .inl st1 => processChars cs st1
    | .inr acc => .inr acc

/-- Line loop of `extractBlock`; `total` is the length of the full line
sequence, returned when input ends before the matching close. -/
def extractBlockAux (total : Nat) : List String → Nat → ExtState → (String × Nat)
  | [], _, st => (⟨st.acc⟩, total)
  | line :: rest, i, st =>
    match processChars line.data st with
    | .inr acc => (⟨acc⟩, i + 1)
    | .inl st1 =>
      let st2 :=
        if st1.started ∧ st1.braceDepth > 0 then { st1 with acc := st1.acc ++ ['\n'] }
        else st1
      extractBlockAux total rest (i + 1) st2

/-- `extractBlock lines startIndex`: the body of the brace block opening on
line `startIndex` without its outer braces, and the index of the line after
the matching close (or `lines.length` when input ends first). -/
def extractBlock (lines : List String) (startIndex : Nat) : String × Nat :=
  extractBlockAux lines.length (lines.drop startIndex) startIndex ⟨0, false, true, []⟩

/-- Depth-only scan of one line: does a `\x7d` return the running depth to
zero, and otherwise what is the final depth. -/
def scanCloses : List Char → Int → Bool × Int
  | [], d => (false, d)
  | c :: cs, d =>
    let d1 := if c = '{' then d + 1 else if c = '}' then d - 1 else d
    if c = '}' ∧ d1 = 0 then (true, d1) else scanCloses cs d1

/-- Depth-only scan over lines. -/
def hasCloseLines : List String → Int → Bool
  | [], _ => false
  | l :: ls, d =>
    match scanCloses l.data d with
    | (true, _) => true
    | (false, d1) => hasCloseLines ls d1

/-- Whether the brace block opening at line `s` ever closes within the input
(the specification-side notion of a complete block). -/
def hasClose (lines : List String) (s : Nat) : Bool :=
  hasCloseLines (lines.drop s) 0

/-- Net brace depth contribution of a character sequence. -/
def braceDelta : List Char → Int
  | [] => 0
  | c :: cs => (if c = '{' then 1 else if c = '}' then -1 else 0) + braceDelta cs

/-- The running brace depth stays strictly positive before, between and after
the characters of the sequence, started from depth `d`: inside such a span
the extractor captures every character and never finds the matching close. -/
def depthStaysPos : List Char → Int → Bool
  | [], d => 0 < d
  | c :: cs, d =>
    (0 < d) ∧ depthStaysPos cs (d + (if c = '{' then 1 else if c = '}' then -1 else 0))

/-- Interior lines as one newline-terminated character stream. -/
def joinNL (inner : List String) : List Char :=
  (inner.map (fun l => l.data ++ ['\n'])).flatten

/-- The character stream a well-formed block feeds to the extractor after its
opening brace: the remainder of the opening line, then each interior line,
newline-terminated. -/
def lineStream (mid : String) (inner : List String) : List Char :=
  mid.data ++ '\n' :: joinNL inner

/-- No brace characters at all. -/
def noBrace (s : String) : Bool :=
  s.data.all (fun c => ¬ (c = '{' ∨ c = '}'))

/-! ## Array parsing -/

/-- The cutset `"\x7b\x7d \n\t"` of the trims in `isArray` / `parseArray`. -/
def braceCutset (c : Char) : Bool :=
  c = '{' ∨ c = '}' ∨ c = ' ' ∨ c = '\n' ∨ c = '\t'

/-- `isArray`: after trimming braces and whitespace, a block with no `=` is an
array. -/
def isArray (content : String) : Bool :=
  ¬ ((goTrimSet content braceCutset).data.contains '=')

/-- Scan for the regular expression `"([^"]+)"`: all non-overlapping quoted
substrings with nonempty bodies.  The state is (in-quote?, reversed body). -/
def findQuotedAux : List Char → Bool → List Char → List String
  | [], _, _ => []
  | c :: cs, false, _ =>
    if c = '"' then findQuotedAux cs true [] else findQuotedAux cs false []
  | c :: cs, true, acc =>
    if c = '"' then
      if acc = [] then findQuotedAux cs true []
      else ⟨acc.reverse⟩ :: findQuotedAux cs false []
    else findQuotedAux cs true (c :: acc)

/-- `parseArray`: quoted strings if any, otherwise whitespace-split tokens run
through the Value Parser. -/
def parseArray (content : String) : List Value :=
  let inner := goTrimSet content braceCutset
  let strs := findQuotedAux inner.data false []
  if strs ≠ [] then strs.map Value.str
  else (goFields inner).map parseValue

/-! ## The Block Parser (`parseBlock`)

`parseBlock` recurses into nested blocks; the Lean embedding indexes the
recursion by fuel.  One unit of fuel is spent per nesting level only (the
line loop is bounded by the line count), and `parseBlock` supplies
`content.length + 1` units — ample, since every nested body is strictly
shorter than its parent (it loses at least the parent's key, `=` and the two
braces). -/

/-- The line loop of `parseBlock`, parameterized by the parser used for
nested map blocks: `steps` bounds the iterations (the cursor strictly
increases, so `lines.length` steps suffice), `i` is the cursor. -/
def parseBlockLines (parseNested : String → List (String × Value)) (lines : List String) :
    Nat → Nat → List (String × Value) → List (String × Value)
  | 0, _, acc => acc
  | steps + 1, i, acc =>
    if h : i < lines.length then
      let line := goTrimSpace (lines.get ⟨i, h⟩)
      if line = "" ∨ line = "\x7d" then parseBlockLines parseNested lines steps (i + 1) acc
      else
        match goSplitFirst line.data '=' with
        | none => parseBlockLines parseNested lines steps (i + 1) acc
        | some (k, v) =>
          let key := goTrimSpace ⟨k⟩
          let valuePart := goTrimSpace ⟨v⟩
          if headIs valuePart '{' then
            match extractBlock lines i with
            | (blockContent, newIndex) =>
              let value :=
                if isArray blockContent then Value.arr (parseArray blockContent)
                else Value.map (parseNested blockContent)
              parseBlockLines parseNested lines steps newIndex (insertA acc key value)
          else
            parseBlockLines parseNested lines steps (i + 1)
              (insertA acc key (parseValue valuePart))
    else acc

/-- Fuel-indexed `parseBlock`. -/
def parseBlockF : Nat → String → List (String × Value)
  | 0, _ => []
  | fuel + 1, content =>
    let lines := goSplitLines content
    parseBlockLines (fun c => parseBlockF fuel c) lines lines.length 0 []

/-- `parseBlock content`: the ordered key-to-value mapping of a block body. -/
def parseBlock (content : String) : List (String × Value) :=
  parseBlockF (content.length + 1) content

/-! ## Conditions, weight modifiers, and the Technology Mapper -/

/-- A condition node (`models.Condition`): combinator type, leaf key/value,
comparison operator, children, and the raw mapping escape hatch. -/
inductive Condition where
  | mk (type : String) (key : String) (value : Option Value) (operator : String)
      (children : List Condition) (raw : List (String × Value))

/-- Combinator type (`AND` / `OR` / `NOT`, or empty for leaves). -/
def Condition.type : Condition → String
  | .mk t _ _ _ _ _ => t

/-- Leaf key. -/
def Condition.key : Condition → String
  | .mk _ k _ _ _ _ => k

/-- Leaf value. -/
def Condition.value : Condition → Option Value
  | .mk _ _ v _ _ _ => v

/-- Comparison operator (never set by this parser). -/
def Condition.operator : Condition → String
  | .mk _ _ _ o _ _ => o

/-- Child conditions. -/
def Condition.children : Condition → List Condition
  | .mk _ _ _ _ c _ => c

/-- Raw mapping. -/
def Condition.raw : Condition → List (String × Value)
  | .mk _ _ _ _ _ r => r

/-- A leaf child `\x7bKey: k, Value: v\x7d` as built by `parseCondition`. -/
def leafCondition (k : String) (v : Value) : Condition :=
  .mk "" k (some v) "" [] []

/-- `parseCondition`: fixed-priority check for a nested map under `AND`,
`OR`, `NOT`; otherwise a single leaf from the first entry of the mapping. -/
def parseCondition (data : List (String × Value)) : Condition :=
  match lookupA data "AND" with
  | some (.map m) => .mk "AND" "" none "" (m.map (fun p => leafCondition p.1 p.2)) data
  | _ =>
    match lookupA data "OR" with
    | some (.map m) => .mk "OR" "" none "" (m.map (fun p => leafCondition p.1 p.2)) data
    | _ =>
      match lookupA data "NOT" with
      | some (.map m) => .mk "NOT" "" none "" (m.map (fun p => leafCondition p.1 p.2)) data
      | _ =>
        match data with
        | (k, v) :: _ => .mk "" k (some v) "" [] data
        | [] => .mk "" "" none "" [] data

/-- A weight modifier (`models.WeightModifier`). -/
structure WeightModifier where
  factor : GoFloat := .finite 0
  add : GoFloat := .finite 0
  conditions : List Condition := []

/-- `parseWeightModifiers`: one modifier for a `factor` entry (integers
widened to float), then one for an `add` entry. -/
def parseWeightModifiers (data : List (String × Value)) : List WeightModifier :=
  let ms : List WeightModifier := []
  let ms :=
    match lookupA data "factor" with
    | some v =>
      ms ++ [{ factor :=
        match v with
        | .float f => f
        | .int i => .finite (i : ℚ)
        | _ => .finite 0 }]
    | none => ms
  match lookupA data "add" with
  | some v =>
    ms ++ [{ add :=
      match v with
      | .float f => f
      | .int i => .finite (i : ℚ)
      | _ => .finite 0 }]
  | none => ms

/-- `getBool`: boolean directly, or the strings `yes` / `true`. -/
def getBool (data : List (String × Value)) (key : String) : Bool :=
  match lookupA data key with
  | some (.bool b) => b
  | some (.str s) => s = "yes" ∨ s = "true"
  | _ => false

/-- A research technology (`models.Technology`); every field defaults to its
Go zero value. -/
structure Technology where
  key : String := ""
  name : String := ""
  description : String := ""
  cost : Int := 0
  area : String := ""
  tier : Int := 0
  category : List String := []
  prerequisites : List String := []
  weight : Int := 0
  baseWeight : GoFloat := .finite 0
  sourceFile : String := ""
  isStartTech : Bool := false
  isDangerous : Bool := false
  isRare : Bool := false
  isEvent : Bool := false
  isRepeatable : Bool := false
  levels : Int := 0
  isGestalt : Bool := false
  isMegacorp : Bool := false
  isMachineEmpire : Bool := false
  isHiveEmpire : Bool := false
  isDriveAssimilator : Bool := false
  isRogueServitor : Bool := false
  featureUnlocks : List String := []
  weightModifiers : List WeightModifier := []
  potential : Option Condition := none
  aiUpdateType : String := ""
  gateway : String := ""
  isReverse : Bool := false
  icon : String := ""

/-- The string elements of a parsed array, non-strings silently skipped. -/
def collectStrings (l : List Value) : List String :=
  l.filterMap (fun v => match v with | .str s => some s | _ => none)

/-- `parseTechnologyBlock`: project the parsed mapping of one top-level block
onto the Technology fields, with per-field dynamic type checks. -/
def parseTechnologyBlock (key content : String) : Technology :=
  let data := parseBlock content
  let t : Technology := { key := key }
  let t := match lookupA data "cost" with | some (.int c) => { t with cost := c } | _ => t
  let t := match lookupA data "area" with | some (.str a) => { t with area := a } | _ => t
  let t := match lookupA data "tier" with | some (.int n) => { t with tier := n } | _ => t
  let t := match lookupA data "weight" with | some (.int w) => { t with weight := w } | _ => t
  let t := match lookupA data "base_weight" with | some (.float f) => { t with baseWeight := f } | _ => t
  let t := { t with
    isStartTech := getBool data "start_tech"
    isDangerous := getBool data "is_dangerous"
    isRare := getBool data "is_rare"
    isEvent := getBool data "is_event_tech"
    isReverse := getBool data "is_reverse_engineerable"
    isRepeatable := getBool data "is_repeatable"
    isGestalt := getBool data "is_gestalt"
    isMegacorp := getBool data "is_megacorp"
    isMachineEmpire := getBool data "is_machine_empire"
    isHiveEmpire := getBool data "is_hive_empire"
    isDriveAssimilator := getBool data "is_drive_assimilator"
    isRogueServitor := getBool data "is_rogue_servitor" }
  let t := match lookupA data "levels" with | some (.int n) => { t with levels := n } | _ => t
  let t := match lookupA data "ai_update_type" with | some (.str s) => { t with aiUpdateType := s } | _ => t
  let t := match lookupA data "gateway" with | some (.str s) => { t with gateway := s } | _ => t
  let t := match lookupA data "icon" with
    | some (.str s) => { t with icon := s }
    | _ => { t with icon := key }
  let t := match lookupA data "prerequisites" with
    | some (.arr l) => { t with prerequisites := collectStrings l }
    | _ => t
  let t := match lookupA data "category" with
    | some (.arr l) => { t with category := collectStrings l }
    | _ => t
  let t := match lookupA data "feature_unlocks" with
    | some (.arr l) => { t with featureUnlocks := collectStrings l }
    | _ => t
  let t := match lookupA data "weight_modifiers" with
    | some (.map m) => { t with weightModifiers := parseWeightModifiers m }
    | _ => t
  match lookupA data "potential" with
  | some (.map m) => { t with potential := some (parseCondition m) }
  | _ => t

/-! ## The Top-Level Block Splitter (`extractTopLevelBlocks`) -/

/-- `\w` of Go regexp: ASCII letters, digits, underscore. -/
def isWordChar (c : Char) : Bool :=
  c.isAlpha ∨ c.isDigit ∨ c = '_'

/-- `\s` of Go regexp: `[\t\n\f\r ]`. -/
def isReSpace (c : Char) : Bool :=
  c = '\t' ∨ c = '\n' ∨ c = '\x0c' ∨ c = '\r' ∨ c = ' '

/-- Try to match the pattern `(\w+)\s*=\s*\x7b` at the head of the input,
returning the capture group. -/
def matchHeaderAt (cs : List Char) : Option String :=
  let ws := cs.takeWhile isWordChar
  if ws = [] then none
  else
    match (cs.dropWhile isWordChar).dropWhile isReSpace with
    | '=' :: r =>
      match r.dropWhile isReSpace with
      | '{' :: _ => some ⟨ws⟩
      | _ => none
    | _ => none

/-- `regexp.FindStringSubmatch` for `(\w+)\s*=\s*\x7b`: the capture of the
leftmost match, if any. -/
def findTechHeader : List Char → Option String
  | [] => none
  | c :: cs =>
    match matchHeaderAt (c :: cs) with
    | some k => some k
    | none => findTechHeader cs

/-- The mutable locals of `extractTopLevelBlocks`. -/
structure SplitState where
  currentKey : String
  currentBlock : String
  braceDepth : Int
  inBlock : Bool
  blocks : List (String × String)

/-- Go map assignment for the splitter's string-valued `blocks` map. -/
def insertS (m : List (String × String)) (k v : String) : List (String × String) :=
  if (m.lookup k).isSome then
    m.map (fun p => if p.1 = k then (k, v) else p)
  else
    m ++ [(k, v)]

/-- One line of `extractTopLevelBlocks`: a header match at depth zero flushes
the previous block and starts a new (empty) one; otherwise, while inside a
block, the line is appended and a return to depth zero flushes. -/
def splitterStep (st : SplitState) (line : String) : SplitState :=
  let matched : Option String :=
    match findTechHeader line.data with
    | some k => if st.braceDepth = 0 then some k else none
    | none => none
  match matched with
  | some key =>
    { currentKey := key
      currentBlock := ""
      braceDepth := st.braceDepth + countChar line '{' - countChar line '}'
      inBlock := true
      blocks :=
        if st.inBlock ∧ st.currentKey ≠ "" then insertS st.blocks st.currentKey st.currentBlock
        else st.blocks }
  | none =>
    if st.inBlock then
      let blk := st.currentBlock ++ line ++ "\n"
      let d := st.braceDepth + countChar line '{' - countChar line '}'
      if d = 0 then
        { currentKey := "", currentBlock := "", braceDepth := d, inBlock := false
          blocks := insertS st.blocks st.currentKey blk }
      else
        { st with currentBlock := blk, braceDepth := d }
    else st

/-- `extractTopLevelBlocks`: map from technology key to the captured body of
its top-level block (the body excludes the opening line and includes the
closing-brace line). -/
def extractTopLevelBlocks (content : String) : List (String × String) :=
  let lines := goSplitLines content
  let final := lines.foldl splitterStep ⟨"", "", 0, false, []⟩
  if final.inBlock ∧ final.currentKey ≠ "" then insertS final.blocks final.currentKey final.currentBlock
  else final.blocks

/-! ## The Dependency Graph Builder (`tree` package)

Pointer-linked `TechNode`s become a key-indexed association list: the
`Dependencies` / `Dependents` pointer slices become lists of keys, looked up
in the shared node map — the standard index-based rendering of a shared
mutable object graph. -/

/-- A graph node (`tree.TechNode`). -/
structure TechNode where
  tech : Technology
  dependencies : List String := []
  dependents : List String := []
  level : Int := 0
  visited : Bool := false

/-- First-match lookup in the node map. -/
def lookupN (m : List (String × TechNode)) (k : String) : Option TechNode :=
  match m with
  | [] => none
  | (k', v) :: rest => if k' = k then some v else lookupN rest k

/-- Update every binding of key `k` (there is at most one; Go mutates the
pointed-to node in place). -/
def updateN (m : List (String × TechNode)) (k : String) (f : TechNode → TechNode) :
    List (String × TechNode) :=
  m.map (fun p => if p.1 = k then (p.1, f p.2) else p)

/-- Add the forward edge `key → prereq` and the mirrored backward edge in one
pass (Go appends to both pointed-to nodes). -/
def addDepEdge (m : List (String × TechNode)) (key prereq : String) :
    List (String × TechNode) :=
  m.map (fun p =>
    let n := p.2
    let n := if p.1 = key then { n with dependencies := n.dependencies ++ [prereq] } else n
    let n := if p.1 = prereq then { n with dependents := n.dependents ++ [key] } else n
    (p.1, n))

/-- Node-creation phase of `NewTechTree`. -/
def newNodes (techs : List (String × Technology)) : List (String × TechNode) :=
  techs.map (fun p => (p.1, { tech := p.2 }))

/-- One prerequisite resolution inside `NewTechTree`: a hit wires both edge
directions at once, a miss records a warning `(key, prereqKey)` and adds no
edge. -/
def wireStep1 (key : String) (acc2 : List (String × TechNode) × List (String × String))
    (prereqKey : String) : List (String × TechNode) × List (String × String) :=
  if (lookupN acc2.1 prereqKey).isSome then (addDepEdge acc2.1 key prereqKey, acc2.2)
  else (acc2.1, acc2.2 ++ [(key, prereqKey)])

/-- All prerequisite resolutions of one node, in list order. -/
def wireStepN (acc : List (String × TechNode) × List (String × String))
    (p : String × TechNode) : List (String × TechNode) × List (String × String) :=
  p.2.tech.prerequisites.foldl (wireStep1 p.1) acc

/-- Edge-wiring phase of `NewTechTree`: resolve each prerequisite key of each
node. -/
def wireEdges (nodes0 : List (String × TechNode)) :
    List (String × TechNode) × List (String × String) :=
  nodes0.foldl wireStepN (nodes0, [])

/-- Root-collection phase: keys of nodes with no dependencies, in node order. -/
def rootKeys (nodes : List (String × TechNode)) : List String :=
  (nodes.filter (fun p => p.2.dependencies = [])).map Prod.fst

/-- The state of `calculateLevels`' work-queue loop, plus the tree's running
maximum level. -/
structure LevelState where
  nodes : List (String × TechNode)
  queue : List String
  maxLevel : Int

/-- One iteration of the dependency scan: fold in one dependency's level. -/
def depStep (nodes : List (String × TechNode)) (m : Int) (d : String) : Int :=
  match lookupN nodes d with
  | some dn => max m dn.level
  | none => m

/-- Largest dependency level, starting from `-1` as in the source. -/
def maxDepLevel (nodes : List (String × TechNode)) (deps : List String) : Int :=
  deps.foldl (depStep nodes) (-1)

/-- Are all dependencies already finalized? -/
def allDepsVisited (nodes : List (String × TechNode)) (deps : List String) : Bool :=
  deps.all (fun d => match lookupN nodes d with | some dn => dn.visited | none => false)

/-- One pop of `calculateLevels`' queue (the queue is known nonempty).  A
node already visited is dropped; otherwise its `Visited` flag is set *before*
the dependency check (part_000 line 480), so a node re-queued because of an
unfinished dependency carries the flag and is skipped on its next pop. -/
def levelStep (st : LevelState) (k : String) (rest : List String) : LevelState :=
  match lookupN st.nodes k with
  | none => { st with queue := rest }
  | some node =>
    if node.visited then { st with queue := rest }
    else
      let nodes1 := updateN st.nodes k (fun n => { n with visited := true })
      if allDepsVisited nodes1 node.dependencies then
        let lvl := maxDepLevel nodes1 node.dependencies + 1
        { nodes := updateN nodes1 k (fun n => { n with level := lvl })
          queue := rest ++ node.dependents
          maxLevel := if lvl > st.maxLevel then lvl else st.maxLevel }
      else { nodes := nodes1, queue := rest ++ [k], maxLevel := st.maxLevel }

/-- The work-queue loop of `calculateLevels`, indexed by fuel: `some` exactly
when the queue empties within `fuel` pops (the Go loop terminates), `none`
when the fuel is exhausted with the queue still nonempty. -/
def levelLoop : Nat → LevelState → Option LevelState
  | 0, _ => none
  | fuel + 1, st =>
    match st.queue with
    | [] => some st
    | k :: rest => levelLoop fuel (levelStep st k rest)

/-- Everything `NewTechTree` does before leveling: nodes, wired edges, roots,
initial queue; also returns the warnings of the wiring phase. -/
def initialState (techs : List (String × Technology)) : LevelState × List (String × String) :=
  let wired := wireEdges (newNodes techs)
  ({ nodes := wired.1, queue := rootKeys wired.1, maxLevel := 0 }, wired.2)

/-- `NewTechTree` under the given fuel: the post-leveling state, or `none` if
the leveling loop fails to finish within `fuel` pops. -/
def newTechTree (fuel : Nat) (techs : List (String × Technology)) : Option LevelState :=
  levelLoop fuel (initialState techs).1

/-- `GetMaxLevel`. -/
def getMaxLevel (st : LevelState) : Int :=
  st.maxLevel

/-- `GetNode`. -/
def getNode (st : LevelState) (key : String) : Option TechNode :=
  lookupN st.nodes key

/-! ## Statement-side definitions -/

/-- A line the Block Parser handles without recursing: blank, a lone closing
brace, no `=`, or a value part not opening a nested block. -/
def flatLine (l : String) : Bool :=
  let t := goTrimSpace l
  if t = "" ∨ t = "\x7d" then true
  else
    match goSplitFirst t.data '=' with
    | none => true
    | some kv => ! headIs (goTrimSpace ⟨kv.2⟩) '{'

/-- The effect of one flat line on the accumulated mapping: split at the
first `=`, trim both sides, parse the value, overwrite-insert. -/
def flatStep (acc : List (String × Value)) (l : String) : List (String × Value) :=
  let t := goTrimSpace l
  if t = "" ∨ t = "\x7d" then acc
  else
    match goSplitFirst t.data '=' with
    | none => acc
    | some kv => insertA acc (goTrimSpace ⟨kv.1⟩) (parseValue (goTrimSpace ⟨kv.2⟩))

/-- Does the mapping hold a nested map under `k`? -/
def isNestedMap (data : List (String × Value)) (k : String) : Bool :=
  match lookupA data k with
  | some (.map _) => true
  | _ => false

/-- The conversion `parseWeightModifiers` applies to a `factor` / `add`
entry: floats kept, integers widened, anything else left at zero. -/
def widenToFloat (v : Value) : GoFloat :=
  match v with
  | .float f => f
  | .int i => .finite (i : ℚ)
  | _ => .finite 0

/-- The Technology produced from an empty captured body: every field at its
documented default (`icon` defaults to the technology's own key). -/
def defaultTechnology (key : String) : Technology :=
  { key := key, icon := key }

/-- Keys of a node map. -/
def nodeKeys (m : List (String × TechNode)) : List String :=
  m.map Prod.fst

/-- First-match lookup in the parsed-technology map. -/
def lookupT : List (String × Technology) → String → Option Technology
  | [], _ => none
  | (k', v) :: rest, k => if k' = k then some v else lookupT rest k

/-- Is the node with this key finalized? (`false` for absent keys.) -/
def visitedB (nodes : List (String × TechNode)) (k : String) : Bool :=
  match lookupN nodes k with
  | some n => n.visited
  | none => false

/-- Invariant carried by the edge-wiring fold: keys, techs and flags are
those of the fresh node map, every dependency edge stems from a prerequisite
of its node and points at an existing key, and the two edge directions
mirror each other (`addDepEdge` adds both ends at once). -/
structure WireInv (nodes0 acc : List (String × TechNode)) : Prop where
  keysEq : nodeKeys acc = nodeKeys nodes0
  base : ∀ k n, lookupN acc k = some n → ∃ n0, lookupN nodes0 k = some n0 ∧
    n.tech = n0.tech ∧ n.level = n0.level ∧ n.visited = n0.visited
  depsOrig : ∀ k n d, lookupN acc k = some n → d ∈ n.dependencies →
    (∃ n0, lookupN nodes0 k = some n0 ∧ d ∈ n0.tech.prerequisites) ∧ d ∈ nodeKeys acc
  mirror1 : ∀ k n d, lookupN acc k = some n → d ∈ n.dependencies →
    ∀ dn, lookupN acc d = some dn → k ∈ dn.dependents
  mirror2 : ∀ d dn k, lookupN acc d = some dn → k ∈ dn.dependents →
    ∀ n, lookupN acc k = some n → d ∈ n.dependencies
  depcl : ∀ d dn k, lookupN acc d = some dn → k ∈ dn.dependents → k ∈ nodeKeys acc

/-- Static well-formedness of the wired graph, unchanged by leveling (which
only touches `visited` / `level`): edges closed over the key set, mirrored
in both directions, and dependencies strictly descending in `rank` (the
acyclicity witness). -/
structure GraphWF (nodes : List (String × TechNode)) (rank : String → Nat) : Prop where
  nodup : (nodeKeys nodes).Nodup
  depsClosed : ∀ k n, lookupN nodes k = some n → ∀ d ∈ n.dependencies, d ∈ nodeKeys nodes
  depdsClosed : ∀ d dn, lookupN nodes d = some dn → ∀ k ∈ dn.dependents, k ∈ nodeKeys nodes
  mirror1 : ∀ k n d, lookupN nodes k = some n → d ∈ n.dependencies →
    ∀ dn, lookupN nodes d = some dn → k ∈ dn.dependents
  mirror2 : ∀ d dn k, lookupN nodes d = some dn → k ∈ dn.dependents →
    ∀ n, lookupN nodes k = some n → d ∈ n.dependencies
  rankLt : ∀ k n, lookupN nodes k = some n → ∀ d ∈ n.dependencies, rank d < rank k

/-- The dynamic invariant of `calculateLevels`' queue loop: every node's
level is still `0` (never finalized: unreached, or marked visited and skipped
after a re-queue) or the node was finalized, its dependencies all carrying
their final `visited` flag, with level `maxDepLevel + 1`; the queue holds
only existing keys, levels are nonnegative and `maxLevel` is a bound attained
by a finalized node (or still `0`). -/
structure LevelInv (st : LevelState) : Prop where
  lvlOr : ∀ k n, lookupN st.nodes k = some n → n.level = 0 ∨
    (n.visited = true ∧ (∀ d ∈ n.dependencies, visitedB st.nodes d = true) ∧
      n.level = maxDepLevel st.nodes n.dependencies + 1)
  qkeys : ∀ k ∈ st.queue, k ∈ nodeKeys st.nodes
  nonneg : ∀ k n, lookupN st.nodes k = some n → 0 ≤ n.level
  maxNonneg : 0 ≤ st.maxLevel
  maxUb : ∀ k n, lookupN st.nodes k = some n → n.level ≤ st.maxLevel
  maxEx : st.maxLevel = 0 ∨ ∃ k n, lookupN st.nodes k = some n ∧ n.visited = true ∧
    n.level = st.maxLevel

/-- Number of unfinalized nodes: the primary termination measure. -/
def unvisitedCount (nodes : List (String × TechNode)) : Nat :=
  (nodes.filter (fun p => ! p.2.visited)).length

/-- A pure two-cycle: neither technology has an empty prerequisite list, so
the root set is empty. -/
def techsC3 : List (String × Technology) :=
  [("a", { key := "a", prerequisites := ["b"] }),
   ("b", { key := "b", prerequisites := ["a"] })]

/-- Example technologies forming the acyclic chain a, b(a), c(a, b). -/
def techC1a : Technology :=
  { key := "a" }

/-- Second example technology, depending on `a`. -/
def techC1b : Technology :=
  { key := "b", prerequisites := ["a"] }

/-- Third example technology, depending on `a` and `b`. -/
def techC1c : Technology :=
  { key := "c", prerequisites := ["a", "b"] }

/-- The acyclic example technology set. -/
def techsC1 : List (String × Technology) :=
  [("a", techC1a), ("b", techC1b), ("c", techC1c)]

/-- A rank certifying acyclicity of the example set. -/
def rankC1 : String → Nat :=
  fun k => if k = "b" then 1 else if k = "c" then 2 else 0

/-- An acyclic example on which the mark-before-check discipline misfires:
two roots, `x` needing `r1` and `y`, `y` needing `r2`, `z` needing `x`.  In
pop order `r1, r2, x, y` the node `x` is popped while `y` is unfinished,
marked visited, re-queued and then skipped forever at level 0, and `z` is
never enqueued. -/
def techsC1x : List (String × Technology) :=
  [("r1", { key := "r1" }),
   ("r2", { key := "r2" }),
   ("x", { key := "x", prerequisites := ["r1", "y"] }),
   ("y", { key := "y", prerequisites := ["r2"] }),
   ("z", { key := "z", prerequisites := ["x"] })]

/-- A rank certifying acyclicity of `techsC1x`. -/
def rankC1x : String → Nat :=
  fun k => if k = "y" then 1 else if k = "x" then 2 else if k = "z" then 3 else 0

/-- Example technology listing one unmatched prerequisite. -/
def techC4a : Technology :=
  { key := "a", prerequisites := ["zz"] }

/-- Example technology set for the missing-prerequisite scenario. -/
def techsC4 : List (String × Technology) :=
  [("a", techC4a), ("b", { key := "b" })]

/-! ## Theorems -/

/-- C6: `parseValue` is total (a Lean function by construction) and, after
stripping surrounding whitespace and trailing commas, classifies by ordered
trial: double-quote-wrapped tokens become the quoted string, `yes`/`true`
and `no`/`false` become booleans, then a base-10 integer when parseable,
then a float when parseable, and otherwise the raw token is returned as a
string. -/
theorem parseValue_classification :
    (∀ s : String, parseValue s = parseValueStripped (goTrimRightChar (goTrimSpace s) ',')) ∧
    (∀ v : String, headIs v '"' = true → lastIs v '"' = true →
      parseValueStripped v = .str (goTrimChar v '"')) ∧
    (∀ v : String, v = "yes" ∨ v = "true" → parseValueStripped v = .bool true) ∧
    (∀ v : String, v = "no" ∨ v = "false" → parseValueStripped v = .bool false) ∧
    (∀ (v : String) (n : Int), ¬ (headIs v '"' = true ∧ lastIs v '"' = true) →
      ¬ (v = "yes" ∨ v = "true") → ¬ (v = "no" ∨ v = "false") →
      goAtoi v = some n → parseValueStripped v = .int n) ∧
    (∀ (v : String) (f : GoFloat), ¬ (headIs v '"' = true ∧ lastIs v '"' = true) →
      ¬ (v = "yes" ∨ v = "true") → ¬ (v = "no" ∨ v = "false") →
      goAtoi v = none → goParseFloat v = some f → parseValueStripped v = .float f) ∧
    (∀ v : String, ¬ (headIs v '"' = true ∧ lastIs v '"' = true) →
      ¬ (v = "yes" ∨ v = "true") → ¬ (v = "no" ∨ v = "false") →
      goAtoi v = none → goParseFloat v = none → parseValueStripped v = .str v) := by
  refine ⟨fun s => rfl, ?_, ?_, ?_, ?_, ?_, ?_⟩
  · intro v h1 h2
    simp [parseValueStripped, h1, h2]
  · rintro v (rfl | rfl) <;> rfl
  · rintro v (rfl | rfl) <;> rfl
  · intro v n hq hy hn ha
    simp only [parseValueStripped, ha]
    rw [if_neg, if_neg hy, if_neg hn]
    simp only [not_and] at hq
    by_cases h1 : headIs v '"' = true
    · simp [h1, hq h1]
    · simp [h1]
  · intro v f hq hy hn ha hf
    simp only [parseValueStripped, ha, hf]
    rw [if_neg, if_neg hy, if_neg hn]
    simp only [not_and] at hq
    by_cases h1 : headIs v '"' = true
    · simp [h1, hq h1]
    · simp [h1]
  · intro v hq hy hn ha hf
    simp only [parseValueStripped, ha, hf]
    rw [if_neg, if_neg hy, if_neg hn]
    simp only [not_and] at hq
    by_cases h1 : headIs v '"' = true
    · simp [h1, hq h1]
    · simp [h1]

/-- Witness for C6: the integer and quoted-string branches at concrete
tokens. -/
theorem parseValue_classification_witness :
    parseValueStripped "42" = Value.int 42 ∧ parseValueStripped "\"ab\"" = Value.str "ab" :=
  ⟨parseValue_classification.2.2.2.2.1 "42" 42 (by decide) (by decide) (by decide) (by rfl),
   parseValue_classification.2.1 "\"ab\"" (by rfl) (by rfl)⟩

/-- C10: `parseWeightModifiers` returns at most two modifiers — a
factor-only one when a `factor` entry exists (integers widened to float) and
an add-only one when an `add` entry exists; no returned modifier has both
fields away from zero, and every returned modifier has an empty `Conditions`
list. -/
theorem parseWeightModifiers_spec :
    (∀ data, (parseWeightModifiers data).length ≤ 2) ∧
    (∀ data m, m ∈ parseWeightModifiers data →
      m.conditions = [] ∧ (m.factor = .finite 0 ∨ m.add = .finite 0)) ∧
    (∀ data v, lookupA data "factor" = some v →
      ({ factor := widenToFloat v } : WeightModifier) ∈ parseWeightModifiers data) ∧
    (∀ data v, lookupA data "add" = some v →
      ({ add := widenToFloat v } : WeightModifier) ∈ parseWeightModifiers data) ∧
    (∀ data, lookupA data "factor" = none → lookupA data "add" = none →
      parseWeightModifiers data = []) := by
  have hshape : ∀ data, parseWeightModifiers data =
      (match lookupA data "factor" with
       | some v => [({ factor := widenToFloat v } : WeightModifier)]
       | none => []) ++
      (match lookupA data "add" with
       | some v => [({ add := widenToFloat v } : WeightModifier)]
       | none => []) := by
    intro data
    cases hf : lookupA data "factor" with
    | none =>
      cases ha : lookupA data "add" with
      | none => simp [parseWeightModifiers, hf, ha]
      | some v => cases v <;> simp [parseWeightModifiers, hf, ha, widenToFloat]
    | some v =>
      cases ha : lookupA data "add" with
      | none => cases v <;> simp [parseWeightModifiers, hf, ha, widenToFloat]
      | some w =>
        cases v <;> cases w <;> simp [parseWeightModifiers, hf, ha, widenToFloat]
  refine ⟨?_, ?_, ?_, ?_, ?_⟩
  · intro data
    rw [hshape]
    cases lookupA data "factor" <;> cases lookupA data "add" <;> simp
  · intro data m hm
    rw [hshape] at hm
    rcases hf : lookupA data "factor" with _ | v <;>
      rcases ha : lookupA data "add" with _ | w <;> rw [hf, ha] at hm <;> simp at hm
    · subst hm; exact ⟨rfl, Or.inl rfl⟩
    · subst hm; exact ⟨rfl, Or.inr rfl⟩
    · rcases hm with h | h
      · subst h; exact ⟨rfl, Or.inr rfl⟩
      · subst h; exact ⟨rfl, Or.inl rfl⟩
  · intro data v hf
    rw [hshape, hf]
    cases lookupA data "add" <;> simp
  · intro data v ha
    rw [hshape, ha]
    cases lookupA data "factor" <;> simp
  · intro data hf ha
    rw [hshape, hf, ha]
    rfl

/-- Witness for C10: a mapping with an integer `factor` and a float `add`
yields the two modifiers, the integer widened. -/
theorem parseWeightModifiers_spec_witness :
    ({ factor := .finite 2 } : WeightModifier) ∈
      parseWeightModifiers [("factor", .int 2), ("add", .float (.finite (5 / 2)))] ∧
    ({ add := .finite (5 / 2) } : WeightModifier) ∈
      parseWeightModifiers [("factor", .int 2), ("add", .float (.finite (5 / 2)))] :=
  ⟨parseWeightModifiers_spec.2.2.1 _ (.int 2) rfl,
   parseWeightModifiers_spec.2.2.2.1 _ (.float (.finite (5 / 2))) rfl⟩

/-- C8: `parseCondition` checks `AND`, `OR`, `NOT` in that fixed order for a
nested map; the first hit sets the combinator type and turns each entry of
that nested map into exactly one leaf child (no recursion into deeper
structure); with no combinator the mapping's first entry becomes a single
leaf and the rest is discarded. -/
theorem parseCondition_spec :
    (∀ data m, lookupA data "AND" = some (.map m) →
      parseCondition data = .mk "AND" "" none "" (m.map (fun p => leafCondition p.1 p.2)) data) ∧
    (∀ data m, isNestedMap data "AND" = false → lookupA data "OR" = some (.map m) →
      parseCondition data = .mk "OR" "" none "" (m.map (fun p => leafCondition p.1 p.2)) data) ∧
    (∀ data m, isNestedMap data "AND" = false → isNestedMap data "OR" = false →
      lookupA data "NOT" = some (.map m) →
      parseCondition data = .mk "NOT" "" none "" (m.map (fun p => leafCondition p.1 p.2)) data) ∧
    (∀ data k v rest, isNestedMap data "AND" = false → isNestedMap data "OR" = false →
      isNestedMap data "NOT" = false → data = (k, v) :: rest →
      parseCondition data = .mk "" k (some v) "" [] data) := by
  have hnot : ∀ data key, isNestedMap data key = false →
      ∀ m, lookupA data key ≠ some (.map m) := by
    intro data key h m hc
    rw [isNestedMap, hc] at h
    exact Bool.noConfusion h
  have skipAnd : ∀ data, isNestedMap data "AND" = false →
      parseCondition data =
        (match lookupA data "OR" with
         | some (.map m) =>
            Condition.mk "OR" "" none ""
              (m.map (fun (p : String × Value) => leafCondition p.1 p.2)) data
         | _ =>
           match lookupA data "NOT" with
           | some (.map m) =>
              Condition.mk "NOT" "" none ""
                (m.map (fun (p : String × Value) => leafCondition p.1 p.2)) data
           | _ =>
             match data with
             | (k, v) :: _ => Condition.mk "" k (some v) "" [] data
             | [] => Condition.mk "" "" none "" [] data) := by
    intro data h
    simp only [parseCondition]
    rcases hA : lookupA data "AND" with _ | v
    · rfl
    · cases v <;> first | rfl | exact absurd hA (hnot data "AND" h _)
  have skipOr : ∀ data, isNestedMap data "OR" = false →
      (match lookupA data "OR" with
       | some (.map m) =>
          Condition.mk "OR" "" none ""
            (m.map (fun (p : String × Value) => leafCondition p.1 p.2)) data
       | _ =>
         match lookupA data "NOT" with
         | some (.map m) =>
            Condition.mk "NOT" "" none ""
              (m.map (fun (p : String × Value) => leafCondition p.1 p.2)) data
         | _ =>
           match data with
           | (k, v) :: _ => Condition.mk "" k (some v) "" [] data
           | [] => Condition.mk "" "" none "" [] data) =
        (match lookupA data "NOT" with
         | some (.map m) =>
            Condition.mk "NOT" "" none ""
              (m.map (fun (p : String × Value) => leafCondition p.1 p.2)) data
         | _ =>
           match data with
           | (k, v) :: _ => Condition.mk "" k (some v) "" [] data
           | [] => Condition.mk "" "" none "" [] data) := by
    intro data h
    rcases hO : lookupA data "OR" with _ | v
    · rfl
    · cases v <;> first | rfl | exact absurd hO (hnot data "OR" h _)
  have skipNot : ∀ data, isNestedMap data "NOT" = false →
      (match lookupA data "NOT" with
       | some (.map m) =>
          Condition.mk "NOT" "" none ""
            (m.map (fun (p : String × Value) => leafCondition p.1 p.2)) data
       | _ =>
         match data with
         | (k, v) :: _ => Condition.mk "" k (some v) "" [] data
         | [] => Condition.mk "" "" none "" [] data) =
        (match data with
         | (k, v) :: _ => Condition.mk "" k (some v) "" [] data
         | [] => Condition.mk "" "" none "" [] data) := by
    intro data h
    rcases hN : lookupA data "NOT" with _ | v
    · rfl
    · cases v <;> first | rfl | exact absurd hN (hnot data "NOT" h _)
  refine ⟨?_, ?_, ?_, ?_⟩
  · intro data m h
    simp only [parseCondition]
    rw [h]
  · intro data m hA h
    rw [skipAnd data hA, h]
  · intro data m hA hO h
    rw [skipAnd data hA, skipOr data hO, h]
  · intro data k v rest hA hO hN hdata
    rw [skipAnd data hA, skipOr data hO, skipNot data hN, hdata]

/-- Witness for C8: the mapping parsed from
`AND = \x7b has_technology = "tech_x"  is_gestalt = yes \x7d` yields type
`AND` with exactly two leaf children. -/
theorem parseCondition_spec_witness :
    (parseCondition (parseBlock
      "AND = \x7b\nhas_technology = \"tech_x\"\nis_gestalt = yes\n\x7d")).type = "AND" ∧
    (parseCondition (parseBlock
      "AND = \x7b\nhas_technology = \"tech_x\"\nis_gestalt = yes\n\x7d")).children.length = 2 := by
  have h := parseCondition_spec.1 (parseBlock
      "AND = \x7b\nhas_technology = \"tech_x\"\nis_gestalt = yes\n\x7d")
      [("has_technology", .str "tech_x"), ("is_gestalt", .bool true)] (by rfl)
  rw [h]
  exact ⟨rfl, rfl⟩

theorem lookupA_append_some (m : List (String × Value)) (k : String) (v : Value)
    (h : lookupA m k = none) : lookupA (m ++ [(k, v)]) k = some v := by
  induction m with
  | nil => simp [lookupA]
  | cons p rest ih =>
    rw [lookupA] at h
    by_cases hp : p.1 = k
    · rw [if_pos hp] at h
      exact absurd h (by simp)
    · rw [if_neg hp] at h
      have : (p :: rest) ++ [(k, v)] = p :: (rest ++ [(k, v)]) := rfl
      rw [this, lookupA, if_neg hp]
      exact ih h

theorem lookupA_map_overwrite (m : List (String × Value)) (k : String) (v : Value)
    (h : (lookupA m k).isSome = true) :
    lookupA (m.map (fun p => if p.1 = k then (k, v) else p)) k = some v := by
  induction m with
  | nil => simp [lookupA] at h
  | cons p rest ih =>
    rcases p with ⟨pk, pv⟩
    by_cases hp : pk = k
    · subst hp
      show lookupA ((if pk = pk then (pk, v) else (pk, pv)) ::
        rest.map (fun p => if p.1 = pk then (pk, v) else p)) pk = some v
      rw [if_pos rfl]
      show (if pk = pk then some v else
        lookupA (rest.map (fun p => if p.1 = pk then (pk, v) else p)) pk) = some v
      rw [if_pos rfl]
    · have h2 : (if pk = k then some pv else lookupA rest k).isSome = true := h
      rw [if_neg hp] at h2
      show lookupA ((if pk = k then (k, v) else (pk, pv)) ::
        rest.map (fun p => if p.1 = k then (k, v) else p)) k = some v
      rw [if_neg hp]
      show (if pk = k then some pv else
        lookupA (rest.map (fun p => if p.1 = k then (k, v) else p)) k) = some v
      rw [if_neg hp]
      exact ih h2

theorem lookupA_insertA (m : List (String × Value)) (k : String) (v : Value) :
    lookupA (insertA m k v) k = some v := by
  rw [insertA]
  rcases hm : lookupA m k with _ | w
  · rw [if_neg (by simp [hm])]
    exact lookupA_append_some m k v hm
  · rw [if_pos (by simp [hm])]
    exact lookupA_map_overwrite m k v (by simp [hm])

theorem parseBlockLines_flat (pn : String → List (String × Value)) (lines : List String)
    (hflat : ∀ l ∈ lines, flatLine l = true) :
    ∀ (steps i : Nat) (acc : List (String × Value)), lines.length - i ≤ steps →
      parseBlockLines pn lines steps i acc = (lines.drop i).foldl flatStep acc := by
  intro steps
  induction steps with
  | zero =>
    intro i acc hle
    have hge : lines.length ≤ i := by omega
    rw [List.drop_eq_nil_of_le hge]
    rfl
  | succ steps ih =>
    intro i acc hle
    by_cases h : i < lines.length
    · have hmem : lines.get ⟨i, h⟩ ∈ lines := lines.get_mem _ h
      have hfl := hflat _ hmem
      rw [flatLine] at hfl
      have hdrop : lines.drop i = lines.get ⟨i, h⟩ :: lines.drop (i + 1) :=
        List.drop_eq_get_cons h
      rw [hdrop, List.foldl_cons]
      simp only [parseBlockLines, dif_pos h]
      by_cases ht : goTrimSpace (lines.get ⟨i, h⟩) = "" ∨ goTrimSpace (lines.get ⟨i, h⟩) = "\x7d"
      · rw [if_pos ht]
        rw [flatStep, if_pos ht]
        exact ih (i + 1) acc (by omega)
      · rw [if_neg ht]
        rw [flatStep, if_neg ht]
        simp only [if_neg ht] at hfl
        revert hfl
        cases hsp : goSplitFirst (goTrimSpace (lines.get ⟨i, h⟩)).data '=' with
        | none =>
          intro hfl
          exact ih (i + 1) acc (by omega)
        | some kv =>
          rcases kv with ⟨k2, v2⟩
          intro hfl
          have hfl2 : (! headIs (goTrimSpace ⟨v2⟩) '{') = true := hfl
          have hnb : ¬ (headIs (goTrimSpace ⟨v2⟩) '{' = true) := by
            cases hb : headIs (goTrimSpace ⟨v2⟩) '{'
            · exact fun hc => Bool.noConfusion hc
            · rw [hb] at hfl2
              exact absurd hfl2 (by decide)
          show (if headIs (goTrimSpace ⟨v2⟩) '{' = true then _ else _) = _
          rw [if_neg hnb]
          exact ih (i + 1) _ (by omega)
    · have hge : lines.length ≤ i := by omega
      rw [List.drop_eq_nil_of_le hge]
      simp only [parseBlockLines, dif_neg h]
      rfl

/-- C7: on a block whose physical lines are all flat (no nested-block
values), `parseBlock` is the left fold that skips blank lines and a lone
closing brace, splits each remaining line at its first `=`, trims both
sides, parses the value, and overwrite-inserts it — so a later duplicate key
in the same block overwrites the earlier value (second conjunct). -/
theorem parseBlock_flat_spec :
    (∀ content : String, (∀ l ∈ goSplitLines content, flatLine l = true) →
      parseBlock content = (goSplitLines content).foldl flatStep []) ∧
    (∀ (m : List (String × Value)) (k : String) (v : Value),
      lookupA (insertA m k v) k = some v) := by
  constructor
  · intro content hflat
    rw [parseBlock, parseBlockF]
    exact parseBlockLines_flat _ _ hflat _ 0 [] (by omega)
  · exact lookupA_insertA

/-- Witness for C7: a three-line block with a duplicate key; the fold result
keeps the later value `3` for `a`. -/
theorem parseBlock_flat_spec_witness :
    parseBlock "a = 1\nb = 2\na = 3" =
      (goSplitLines "a = 1\nb = 2\na = 3").foldl flatStep [] ∧
    lookupA (parseBlock "a = 1\nb = 2\na = 3") "a" = some (Value.int 3) := by
  have h := parseBlock_flat_spec.1 "a = 1\nb = 2\na = 3" (by decide)
  exact ⟨h, by rw [h]; rfl⟩

theorem braceDelta_append (xs ys : List Char) :
    braceDelta (xs ++ ys) = braceDelta xs + braceDelta ys := by
  induction xs with
  | nil => simp [braceDelta]
  | cons c cs ih =>
    show (if c = '{' then (1 : Int) else if c = '}' then -1 else 0) + braceDelta (cs ++ ys) =
      ((if c = '{' then (1 : Int) else if c = '}' then -1 else 0) + braceDelta cs) + braceDelta ys
    rw [ih]
    omega

theorem processChar_eq (st : ExtState) (c : Char) :
    processChar st c =
      (if c = '{' then
        (if st.firstBrace then
          .inl { st with braceDepth := st.braceDepth + 1, started := true, firstBrace := false }
         else .inl (writeMaybe { st with braceDepth := st.braceDepth + 1, started := true } c))
      else if c = '}' then
        (if st.braceDepth - 1 = 0 then .inr st.acc
         else .inl (writeMaybe { st with braceDepth := st.braceDepth - 1 } c))
      else .inl (writeMaybe st c)) := rfl

theorem depthStaysPos_head : ∀ (cs : List Char) (d : Int),
    depthStaysPos cs d = true → 0 < d := by
  intro cs d h
  cases cs with
  | nil => simpa [depthStaysPos] using h
  | cons c cs =>
    rw [depthStaysPos] at h
    simp only [decide_eq_true_eq] at h
    exact h.1

theorem depthStaysPos_split : ∀ (xs ys : List Char) (d : Int),
    depthStaysPos (xs ++ ys) d = true →
    depthStaysPos xs d = true ∧ depthStaysPos ys (d + braceDelta xs) = true := by
  intro xs
  induction xs with
  | nil =>
    intro ys d h
    refine ⟨by simp [depthStaysPos, depthStaysPos_head _ _ h], ?_⟩
    simpa [braceDelta] using h
  | cons c cs ih =>
    intro ys d h
    rw [List.cons_append, depthStaysPos] at h
    simp only [decide_eq_true_eq] at h
    obtain ⟨hd, hrest⟩ := h
    obtain ⟨h1, h2⟩ := ih ys _ hrest
    refine ⟨?_, ?_⟩
    · rw [depthStaysPos]
      simp only [decide_eq_true_eq]
      exact ⟨hd, h1⟩
    · have : d + (if c = '{' then 1 else if c = '}' then -1 else 0) + braceDelta cs =
        d + braceDelta (c :: cs) := by
        rw [braceDelta]
        omega
      rwa [this] at h2

theorem writeMaybe_braceDepth (st : ExtState) (c : Char) :
    (writeMaybe st c).braceDepth = st.braceDepth := by
  rw [writeMaybe]
  split <;> rfl

theorem writeMaybe_started (st : ExtState) (c : Char) :
    (writeMaybe st c).started = st.started := by
  rw [writeMaybe]
  split <;> rfl

theorem writeMaybe_firstBrace (st : ExtState) (c : Char) :
    (writeMaybe st c).firstBrace = st.firstBrace := by
  rw [writeMaybe]
  split <;> rfl

theorem processChars_noBrace : ∀ (cs : List Char) (st : ExtState),
    (∀ c ∈ cs, c ≠ '{' ∧ c ≠ '}') → st.started = false →
    processChars cs st = .inl st := by
  intro cs
  induction cs with
  | nil => intro st _ _; rfl
  | cons c cs ih =>
    intro st h hstart
    have hc := h c (by simp)
    rw [processChars, processChar, if_neg hc.1, if_neg hc.2, writeMaybe,
      if_neg (by rw [hstart]; simp)]
    exact ih st (fun x hx => h x (by simp [hx])) hstart

theorem processChars_pos : ∀ (cs : List Char) (d : Int) (acc : List Char),
    depthStaysPos cs d = true →
    processChars cs ⟨d, true, false, acc⟩ = .inl ⟨d + braceDelta cs, true, false, acc ++ cs⟩ := by
  intro cs
  induction cs with
  | nil =>
    intro d acc _
    simp [processChars, braceDelta]
  | cons c cs ih =>
    intro d acc h
    rw [depthStaysPos] at h
    simp only [decide_eq_true_eq] at h
    obtain ⟨hd, hrest⟩ := h
    have hafter : 0 < d + (if c = '{' then 1 else if c = '}' then -1 else 0) :=
      depthStaysPos_head _ _ hrest
    have hdelta : braceDelta (c :: cs) =
        (if c = '{' then (1 : Int) else if c = '}' then -1 else 0) + braceDelta cs := rfl
    rw [processChars, processChar_eq]
    by_cases h1 : c = '{'
    · rw [if_pos h1]
      rw [if_pos h1] at hafter hrest
      have hw : writeMaybe ⟨d + 1, true, false, acc⟩ c = ⟨d + 1, true, false, acc ++ [c]⟩ := by
        simp [writeMaybe, hafter]
      show processChars cs (writeMaybe ⟨d + 1, true, false, acc⟩ c) = _
      rw [hw, ih _ _ hrest]
      rw [hdelta, if_pos h1]
      simp only [Sum.inl.injEq, ExtState.mk.injEq, List.append_assoc, List.singleton_append]
      refine ⟨by omega, by trivial, by trivial, by trivial⟩
    · rw [if_neg h1]
      rw [if_neg h1] at hafter hrest
      by_cases h2 : c = '}'
      · rw [if_pos h2]
        rw [if_pos h2] at hafter hrest
        rw [if_neg (show ¬ (d - 1 = 0) by omega)]
        have hpos : (0 : Int) < d - 1 := by omega
        have hw : writeMaybe ⟨d - 1, true, false, acc⟩ c = ⟨d - 1, true, false, acc ++ [c]⟩ := by
          simp [writeMaybe, hpos]
        show processChars cs (writeMaybe ⟨d - 1, true, false, acc⟩ c) = _
        rw [hw, ih _ _ (by rw [show d + -1 = d - 1 by omega] at hrest; exact hrest)]
        rw [hdelta, if_neg h1, if_pos h2]
        simp only [Sum.inl.injEq, ExtState.mk.injEq, List.append_assoc, List.singleton_append]
        refine ⟨by omega, by trivial, by trivial, by trivial⟩
      · rw [if_neg h2]
        rw [if_neg h2] at hafter hrest
        have hpos : (0 : Int) < d := by omega
        have hw : writeMaybe ⟨d, true, false, acc⟩ c = ⟨d, true, false, acc ++ [c]⟩ := by
          simp [writeMaybe, hpos]
        show processChars cs (writeMaybe ⟨d, true, false, acc⟩ c) = _
        rw [hw, ih _ _ (by rw [show d + 0 = d by omega] at hrest; exact hrest)]
        rw [hdelta, if_neg h1, if_neg h2]
        simp only [Sum.inl.injEq, ExtState.mk.injEq, List.append_assoc, List.singleton_append]
        refine ⟨by omega, by trivial, by trivial, by trivial⟩

theorem processChars_append : ∀ (xs ys : List Char) (st : ExtState),
    processChars (xs ++ ys) st =
      (match processChars xs st with
       | .inl st1 => processChars ys st1
       | .inr a => .inr a) := by
  intro xs
  induction xs with
  | nil => intro ys st; rfl
  | cons c cs ih =>
    intro ys st
    rw [List.cons_append, processChars, processChars]
    cases processChar st c with
    | inl st1 => exact ih ys st1
    | inr a => rfl

theorem processChars_append_inl (xs ys : List Char) (st st1 : ExtState)
    (h : processChars xs st = .inl st1) :
    processChars (xs ++ ys) st = processChars ys st1 := by
  rw [processChars_append, h]

theorem extractAux_lines : ∀ (inner : List String) (rest : List String) (total i : Nat)
    (d : Int) (acc : List Char),
    depthStaysPos (joinNL inner) d = true →
    extractBlockAux total (inner ++ rest) i ⟨d, true, false, acc⟩ =
      extractBlockAux total rest (i + inner.length)
        ⟨d + braceDelta (joinNL inner), true, false, acc ++ joinNL inner⟩ := by
  intro inner
  induction inner with
  | nil =>
    intro rest total i d acc _
    simp [joinNL, braceDelta]
  | cons l ls ih =>
    intro rest total i d acc h
    have hjoin : joinNL (l :: ls) = (l.data ++ ['\n']) ++ joinNL ls := by
      simp [joinNL]
    rw [hjoin] at h
    obtain ⟨h1, h2⟩ := depthStaysPos_split _ _ _ h
    obtain ⟨hl, hnl⟩ := depthStaysPos_split _ _ _ h1
    have hd' : 0 < d + braceDelta l.data := depthStaysPos_head _ _ hnl
    rw [List.cons_append, extractBlockAux]
    rw [processChars_pos _ _ _ hl]
    simp only
    rw [if_pos (by exact ⟨by trivial, hd'⟩)]
    have hstays : depthStaysPos (joinNL ls) (d + braceDelta l.data) = true := by
      have : d + braceDelta (l.data ++ ['\n']) = d + braceDelta l.data := by
        rw [braceDelta_append]
        simp [braceDelta]
      rwa [this] at h2
    rw [ih rest total (i + 1) _ _ hstays]
    have e1 : i + 1 + ls.length = i + (l :: ls).length := by
      simp [List.length_cons]
      omega
    have e2 : d + braceDelta l.data + braceDelta (joinNL ls) =
        d + braceDelta (joinNL (l :: ls)) := by
      rw [hjoin, braceDelta_append, braceDelta_append]
      simp [braceDelta]
      omega
    have e3 : acc ++ l.data ++ ['\n'] ++ joinNL ls = acc ++ joinNL (l :: ls) := by
      rw [hjoin]
      simp [List.append_assoc]
    rw [e1, e2, e3]

theorem extractAux_close : ∀ (tailChars : List Char) (post : List String) (total i : Nat)
    (acc : List Char),
    extractBlockAux total (⟨'}' :: tailChars⟩ :: post) i ⟨1, true, false, acc⟩ =
      (⟨acc⟩, i + 1) := by
  intro tailChars post total i acc
  rfl

theorem processChars_scan : ∀ (cs : List Char) (st : ExtState),
    (∀ a, processChars cs st = .inr a → (scanCloses cs st.braceDepth).1 = true) ∧
    (∀ st1, processChars cs st = .inl st1 →
      (scanCloses cs st.braceDepth).1 = false ∧
      st1.braceDepth = (scanCloses cs st.braceDepth).2) := by
  intro cs
  induction cs with
  | nil =>
    intro st
    refine ⟨fun a ha => by exact absurd ha (by simp [processChars]), fun st1 h1 => ?_⟩
    rw [processChars] at h1
    cases h1
    exact ⟨rfl, rfl⟩
  | cons c cs ih =>
    intro st
    by_cases h1 : c = '{'
    · subst h1
      have hscan : scanCloses ('{' :: cs) st.braceDepth = scanCloses cs (st.braceDepth + 1) :=
        rfl
      rw [processChars, hscan]
      by_cases hfb : st.firstBrace = true
      · have hpc : processChar st '{' = .inl ⟨st.braceDepth + 1, true, false, st.acc⟩ := by
          rw [processChar_eq, if_pos rfl, if_pos hfb]
        rw [hpc]
        exact ⟨fun a ha => (ih _).1 a ha, fun st1 ha => (ih _).2 st1 ha⟩
      · have hpc : processChar st '{' =
            .inl (writeMaybe ⟨st.braceDepth + 1, true, st.firstBrace, st.acc⟩ '{') := by
          rw [processChar_eq, if_pos rfl, if_neg hfb]
        rw [hpc]
        constructor
        · intro a ha
          have h := (ih _).1 a ha
          rw [writeMaybe_braceDepth] at h
          exact h
        · intro st1 ha
          have h := (ih _).2 st1 ha
          rw [writeMaybe_braceDepth] at h
          exact h
    · by_cases h2 : c = '}'
      · subst h2
        by_cases h0 : st.braceDepth - 1 = 0
        · have hscan : scanCloses ('}' :: cs) st.braceDepth = (true, st.braceDepth - 1) := by
            have he : scanCloses ('}' :: cs) st.braceDepth =
                (if ('}' : Char) = '}' ∧ st.braceDepth - 1 = 0 then ((true : Bool), st.braceDepth - 1)
                 else scanCloses cs (st.braceDepth - 1)) := rfl
            rw [he, if_pos ⟨rfl, h0⟩]
          have hpc : processChar st '}' = .inr st.acc := by
            have he : processChar st '}' = (if st.braceDepth - 1 = 0 then .inr st.acc
                else .inl (writeMaybe ⟨st.braceDepth - 1, st.started, st.firstBrace,
                  st.acc⟩ '}')) := rfl
            rw [he, if_pos h0]
          rw [processChars, hscan, hpc]
          exact ⟨fun a _ => rfl, fun st1 hc => by cases hc⟩
        · have hscan : scanCloses ('}' :: cs) st.braceDepth =
              scanCloses cs (st.braceDepth - 1) := by
            have he : scanCloses ('}' :: cs) st.braceDepth =
                (if ('}' : Char) = '}' ∧ st.braceDepth - 1 = 0 then ((true : Bool), st.braceDepth - 1)
                 else scanCloses cs (st.braceDepth - 1)) := rfl
            rw [he, if_neg (fun hc => h0 hc.2)]
          have hpc : processChar st '}' = .inl (writeMaybe ⟨st.braceDepth - 1, st.started,
              st.firstBrace, st.acc⟩ '}') := by
            have he : processChar st '}' = (if st.braceDepth - 1 = 0 then .inr st.acc
                else .inl (writeMaybe ⟨st.braceDepth - 1, st.started, st.firstBrace,
                  st.acc⟩ '}')) := rfl
            rw [he, if_neg h0]
          rw [processChars, hscan, hpc]
          constructor
          · intro a ha
            have h := (ih _).1 a ha
            rw [writeMaybe_braceDepth] at h
            exact h
          · intro st1 ha
            have h := (ih _).2 st1 ha
            rw [writeMaybe_braceDepth] at h
            exact h
      · have hscan : scanCloses (c :: cs) st.braceDepth = scanCloses cs st.braceDepth := by
          rw [scanCloses]
          simp only [if_neg h1, if_neg h2]
          rw [if_neg (fun hc => h2 hc.1)]
        have hpc : processChar st c = .inl (writeMaybe st c) := by
          rw [processChar_eq, if_neg h1, if_neg h2]
        rw [processChars, hscan, hpc]
        constructor
        · intro a ha
          have h := (ih _).1 a ha
          rw [writeMaybe_braceDepth] at h
          exact h
        · intro st1 ha
          have h := (ih _).2 st1 ha
          rw [writeMaybe_braceDepth] at h
          exact h

theorem extractAux_noClose : ∀ (ls : List String) (total i : Nat) (st : ExtState),
    hasCloseLines ls st.braceDepth = false →
    (extractBlockAux total ls i st).2 = total := by
  intro ls
  induction ls with
  | nil => intro total i st _; rfl
  | cons l rest ih =>
    intro total i st h
    rw [hasCloseLines] at h
    rw [extractBlockAux]
    rcases hp : processChars l.data st with st1 | a
    · rcases hsc : scanCloses l.data st.braceDepth with ⟨found, d1⟩
      have halign := (processChars_scan l.data st).2 st1 hp
      rw [hsc] at halign h
      rcases found with _ | _
      · simp only at halign h
        have hd : (if st1.started ∧ st1.braceDepth > 0 then
            { st1 with acc := st1.acc ++ ['\n'] } else st1).braceDepth = d1 := by
          split
          · exact halign.2
          · exact halign.2
        rw [← hd] at h
        exact ih total (i + 1) _ h
      · exact absurd h (by simp)
    · have halign := (processChars_scan l.data st).1 a hp
      rcases hsc : scanCloses l.data st.braceDepth with ⟨found, d1⟩
      rw [hsc] at halign h
      simp only at halign
      rw [halign] at h
      exact absurd h (by simp)

/-- C5: on a well-formed block — any prefix without braces, the opening
brace, a balanced interior stream, the closing brace — `extractBlock` returns
exactly the interior stream (both outer braces excluded) together with the
index of the line after the closing brace, which strictly exceeds the start
index; and when the input ends before the matching close it returns the
accumulated text with the total number of lines. -/
theorem extractBlock_spec :
    (∀ (front : List String) (pre mid : String) (inner : List String) (tailStr : String)
        (post : List String),
      noBrace pre = true →
      depthStaysPos (lineStream mid inner) 1 = true →
      braceDelta (lineStream mid inner) = 0 →
      extractBlock (front ++ (pre ++ "\x7b" ++ mid) :: (inner ++ ("\x7d" ++ tailStr) :: post))
          front.length =
        (⟨lineStream mid inner⟩, front.length + inner.length + 2) ∧
      front.length < front.length + inner.length + 2) ∧
    (∀ (lines : List String) (s : Nat), hasClose lines s = false →
      (extractBlock lines s).2 = lines.length) := by
  constructor
  · intro front pre mid inner tailStr post hpre hpos hdelta
    refine ⟨?_, by omega⟩
    rw [lineStream] at hpos hdelta
    obtain ⟨hmid, hrest⟩ := depthStaysPos_split mid.data ('\n' :: joinNL inner) 1 hpos
    rw [depthStaysPos] at hrest
    simp only [decide_eq_true_eq] at hrest
    obtain ⟨hd', hjoin⟩ := hrest
    have hjoin2 : depthStaysPos (joinNL inner) (1 + braceDelta mid.data) = true := by
      have e : 1 + braceDelta mid.data + (if '\n' = '{' then (1 : Int)
          else if '\n' = '}' then -1 else 0) = 1 + braceDelta mid.data := by simp
      rwa [e] at hjoin
    rw [extractBlock, List.drop_left, extractBlockAux]
    have hdata : (pre ++ "\x7b" ++ mid).data = pre.data ++ ('{' :: mid.data) := by
      rw [String.data_append, String.data_append]
      simp
    have hnb : ∀ c ∈ pre.data, c ≠ '{' ∧ c ≠ '}' := by
      intro c hc
      rw [noBrace] at hpre
      have h := List.all_eq_true.mp hpre c hc
      have h2 : ¬ (c = '{' ∨ c = '}') := of_decide_eq_true h
      exact ⟨fun hcc => h2 (Or.inl hcc), fun hcc => h2 (Or.inr hcc)⟩
    rw [hdata, processChars_append_inl pre.data _ _ _ (processChars_noBrace pre.data _ hnb rfl)]
    have hopen : processChars ('{' :: mid.data) ⟨0, false, true, ([] : List Char)⟩ =
        processChars mid.data ⟨1, true, false, []⟩ := rfl
    rw [hopen, processChars_pos _ _ _ hmid]
    simp only [List.nil_append]
    rw [if_pos (⟨True.intro, hd'⟩ : True ∧ 1 + braceDelta mid.data > 0)]
    rw [extractAux_lines inner (("\x7d" ++ tailStr) :: post) _ _ _ _ hjoin2]
    have e2 : 1 + braceDelta mid.data + braceDelta (joinNL inner) = 1 := by
      rw [braceDelta_append] at hdelta
      have : braceDelta ('\n' :: joinNL inner) = braceDelta (joinNL inner) := by
        rw [braceDelta]
        simp
      rw [this] at hdelta
      omega
    rw [e2]
    have e3 : mid.data ++ ['\n'] ++ joinNL inner = mid.data ++ '\n' :: joinNL inner := by
      simp
    rw [e3]
    have hclose : ("\x7d" ++ tailStr) = (⟨'}' :: tailStr.data⟩ : String) := by
      apply congrArg String.mk
      rfl
    rw [hclose, extractAux_close]
    have e4 : front.length + 1 + inner.length + 1 = front.length + inner.length + 2 := by
      omega
    rw [e4, lineStream]
  · intro lines s h
    rw [extractBlock]
    exact extractAux_noClose _ _ _ _ h

/-- Witness for C5: a three-line block; the extractor returns the interior
line stream and resume index `3 > 0`. -/
theorem extractBlock_spec_witness :
    extractBlock ["a = \x7b", "x = 1", "\x7d"] 0 = ("\nx = 1\n", 3) ∧ (0 : Nat) < 3 := by
  have h := extractBlock_spec.1 [] "a = " "" ["x = 1"] "" [] (by decide) (by decide) (by decide)
  refine ⟨?_, by omega⟩
  have h2 := h.1
  simpa using h2

theorem splitSep_no_sep : ∀ (cs : List Char) (sep : Char), sep ∉ cs →
    splitSep cs sep = [cs] := by
  intro cs sep
  induction cs with
  | nil => intro _; rfl
  | cons c cs ih =>
    intro h
    have hc : ¬ (c = sep) := fun hc => h (by rw [hc]; exact List.mem_cons_self _ _)
    rw [splitSep, if_neg hc, ih (fun hm => h (List.mem_cons_of_mem _ hm))]

theorem goSplitLines_single (l : String) (h : '\n' ∉ l.data) : goSplitLines l = [l] := by
  rw [goSplitLines, splitSep_no_sep _ _ h]
  rfl

theorem matchHeaderAt_ne_empty (cs : List Char) (k : String)
    (h : matchHeaderAt cs = some k) : k ≠ "" := by
  rw [matchHeaderAt] at h
  by_cases hw : cs.takeWhile isWordChar = []
  · rw [if_pos hw] at h
    cases h
  · rw [if_neg hw] at h
    split at h
    · split at h
      · cases h
        intro hk
        exact hw (by
          have h2 := congrArg String.data hk
          simpa using h2)
      · cases h
    · cases h

theorem findTechHeader_ne_empty : ∀ (cs : List Char) (k : String),
    findTechHeader cs = some k → k ≠ "" := by
  intro cs
  induction cs with
  | nil => intro k h; cases h
  | cons c cs ih =>
    intro k h
    rw [findTechHeader] at h
    rcases hm : matchHeaderAt (c :: cs) with _ | w
    · rw [hm] at h
      exact ih k h
    · rw [hm] at h
      cases h
      exact matchHeaderAt_ne_empty _ _ hm

/-- Counterexample for C9: a technology defined entirely on one line followed
by a stray non-header line does not get an empty captured body — the stray
line is absorbed into it. -/
theorem extractTopLevelBlocks_oneLine_cex :
    extractTopLevelBlocks "tech = \x7b cost = 5 \x7d\nx" = [("tech", "x\n")] ∧
    ("x\n" : String) ≠ "" := by
  exact ⟨rfl, by decide⟩

/-- C9 (amended): the splitter never captures any text of a block's opening
line (the match branch resets the accumulator and does not append the line);
consequently a one-line definition that is the last line of its file
produces an empty captured body, and the Technology parsed from an empty
body keeps every field at its default (with `icon` defaulting to the key);
a one-line definition directly followed by another header line also gets an
empty body.  (Non-header lines following a one-line definition are absorbed
into its body — see the counterexample.) -/
theorem extractTopLevelBlocks_oneLine :
    (∀ (st : SplitState) (line : String) (key : String),
      findTechHeader line.data = some key → st.braceDepth = 0 →
      (splitterStep st line).currentBlock = "") ∧
    (∀ (line : String) (key : String), findTechHeader line.data = some key →
      countChar line '{' = countChar line '}' → '\n' ∉ line.data →
      extractTopLevelBlocks line = [(key, "")]) ∧
    (∀ (line line2 : String) (key key2 : String), findTechHeader line.data = some key →
      countChar line '{' = countChar line '}' → '\n' ∉ line.data → '\n' ∉ line2.data →
      findTechHeader line2.data = some key2 →
      List.lookup key (extractTopLevelBlocks (line ++ "\n" ++ line2)) = some "") ∧
    (∀ key : String, parseTechnologyBlock key "" = defaultTechnology key) := by
  have hstep : ∀ (st : SplitState) (line : String) (key : String),
      findTechHeader line.data = some key → st.braceDepth = 0 →
      splitterStep st line =
        { currentKey := key, currentBlock := "",
          braceDepth := st.braceDepth + countChar line '{' - countChar line '}',
          inBlock := true,
          blocks := if st.inBlock ∧ st.currentKey ≠ "" then
            insertS st.blocks st.currentKey st.currentBlock else st.blocks } := by
    intro st line key hf hd
    have hmatched : (match findTechHeader line.data with
        | some k => if st.braceDepth = 0 then some k else none
        | none => none) = some key := by
      rw [hf]
      show (if st.braceDepth = 0 then some key else none) = some key
      rw [if_pos hd]
    rw [splitterStep, hmatched]
  refine ⟨?_, ?_, ?_, ?_⟩
  · intro st line key hf hd
    rw [hstep st line key hf hd]
  · intro line key hf hb hnl
    rw [extractTopLevelBlocks, goSplitLines_single line hnl]
    rw [List.foldl_cons, List.foldl_nil]
    rw [hstep _ line key hf rfl]
    show (if (true = true) ∧ key ≠ "" then insertS ([] : List (String × String)) key "" else [])
      = [(key, "")]
    have c1 : (true = true) ∧ key ≠ "" := ⟨rfl, findTechHeader_ne_empty _ _ hf⟩
    rw [if_pos c1]
    rfl
  · intro line line2 key key2 hf hb hnl hnl2 hf2
    have hsplit : goSplitLines (line ++ "\n" ++ line2) = line :: [line2] := by
      rw [goSplitLines]
      have hdata : (line ++ "\n" ++ line2).data = line.data ++ '\n' :: line2.data := by
        rw [String.data_append, String.data_append]
        simp
      rw [hdata]
      have hsep : ∀ (xs ys : List Char), '\n' ∉ xs →
          splitSep (xs ++ '\n' :: ys) '\n' = xs :: splitSep ys '\n' := by
        intro xs
        induction xs with
        | nil => intro ys _; rw [List.nil_append, splitSep, if_pos rfl]
        | cons x xs ih =>
          intro ys hx
          rw [List.cons_append, splitSep,
            if_neg (fun hc => hx (by rw [hc]; exact List.mem_cons_self _ _)),
            ih ys (fun hm => hx (List.mem_cons_of_mem _ hm))]
      rw [hsep line.data line2.data hnl, splitSep_no_sep _ _ hnl2]
      rfl
    rw [extractTopLevelBlocks, hsplit]
    rw [List.foldl_cons, List.foldl_cons, List.foldl_nil]
    rw [hstep _ line key hf rfl]
    have hz : (0 : Int) + countChar line '{' - countChar line '}' = 0 := by
      rw [hb]; omega
    rw [hstep _ line2 key2 hf2 (by exact hz)]
    have hne1 : key ≠ "" := findTechHeader_ne_empty _ _ hf
    have hne2 : key2 ≠ "" := findTechHeader_ne_empty _ _ hf2
    show List.lookup key
      (if (true = true) ∧ key2 ≠ "" then
        insertS (if (true = true) ∧ key ≠ "" then insertS [] key "" else []) key2 ""
       else (if (true = true) ∧ key ≠ "" then insertS [] key "" else [])) = some ""
    have c1 : (true = true) ∧ key ≠ "" := ⟨rfl, hne1⟩
    have c2 : (true = true) ∧ key2 ≠ "" := ⟨rfl, hne2⟩
    rw [if_pos c1, if_pos c2]
    have hk1 : insertS [] key "" = [(key, "")] := rfl
    rw [hk1]
    by_cases hk : key2 = key
    · subst hk
      rw [insertS]
      rw [if_pos (by simp [List.lookup])]
      have hmap : ([(key2, "")].map (fun p => if p.1 = key2 then (key2, "") else p)) =
          [(key2, "")] := by simp
      rw [hmap]
      simp [List.lookup]
    · rw [insertS]
      rw [if_neg (by
        have hb2 : (key2 == key) = false := beq_eq_false_iff_ne.mpr hk
        simp [List.lookup, hb2])]
      simp [List.lookup]
  · intro key
    rfl

/-- Witness for C9 (amended): the one-line definition `tech = \x7b cost = 5 \x7d`
alone in its input gets an empty captured body and an all-default
Technology. -/
theorem extractTopLevelBlocks_oneLine_witness :
    extractTopLevelBlocks "tech = \x7b cost = 5 \x7d" = [("tech", "")] ∧
    parseTechnologyBlock "tech" "" = defaultTechnology "tech" :=
  ⟨extractTopLevelBlocks_oneLine.2.1 "tech = \x7b cost = 5 \x7d" "tech" (by rfl) (by rfl)
      (by decide),
   extractTopLevelBlocks_oneLine.2.2.2 "tech"⟩

theorem lookupN_mem : ∀ (m : List (String × TechNode)) (k : String) (n : TechNode),
    lookupN m k = some n → (k, n) ∈ m := by
  intro m
  induction m with
  | nil => intro k n h; cases h
  | cons p rest ih =>
    intro k n h
    rcases p with ⟨pk, pn⟩
    rw [lookupN] at h
    by_cases hp : pk = k
    · subst hp
      rw [if_pos rfl] at h
      cases h
      exact List.mem_cons_self _ _
    · rw [if_neg hp] at h
      exact List.mem_cons_of_mem _ (ih k n h)

theorem lookupN_isSome_iff : ∀ (m : List (String × TechNode)) (k : String),
    (lookupN m k).isSome = true ↔ k ∈ nodeKeys m := by
  intro m
  induction m with
  | nil => intro k; simp [lookupN, nodeKeys]
  | cons p rest ih =>
    intro k
    rcases p with ⟨pk, pn⟩
    rw [lookupN]
    by_cases hp : pk = k
    · subst hp
      rw [if_pos rfl]
      simp [nodeKeys]
    · rw [if_neg hp]
      rw [ih k]
      simp [nodeKeys]
      intro hk
      exact absurd hk.symm hp

theorem lookupN_eq_none_iff (m : List (String × TechNode)) (k : String) :
    lookupN m k = none ↔ k ∉ nodeKeys m := by
  rw [← lookupN_isSome_iff]
  cases lookupN m k <;> simp

theorem lookupN_of_mem_nodup : ∀ (m : List (String × TechNode)) (k : String) (n : TechNode),
    (nodeKeys m).Nodup → (k, n) ∈ m → lookupN m k = some n := by
  intro m
  induction m with
  | nil => intro k n _ h; cases h
  | cons p rest ih =>
    intro k n hnd h
    rw [nodeKeys, List.map_cons, List.nodup_cons] at hnd
    rcases List.mem_cons.mp h with h1 | h1
    · rw [← h1, lookupN, if_pos rfl]
    · have hk : p.1 ≠ k := by
        intro hc
        exact hnd.1 (by
          rw [hc]
          have hm : (k, n).1 ∈ List.map Prod.fst rest := List.mem_map_of_mem Prod.fst h1
          exact hm)
      rw [lookupN, if_neg hk]
      exact ih k n hnd.2 h1

theorem updateN_keys (m : List (String × TechNode)) (k : String) (f : TechNode → TechNode) :
    nodeKeys (updateN m k f) = nodeKeys m := by
  rw [updateN, nodeKeys, List.map_map, nodeKeys]
  apply List.map_congr_left
  intro p _
  by_cases hp : p.1 = k
  · simp [Function.comp, hp]
  · simp [Function.comp, hp]

theorem lookupN_updateN (m : List (String × TechNode)) (k : String) (f : TechNode → TechNode)
    (k' : String) :
    lookupN (updateN m k f) k' =
      if k' = k then (lookupN m k').map f else lookupN m k' := by
  induction m with
  | nil => simp [updateN, lookupN]
  | cons p rest ih =>
    rcases p with ⟨pk, pn⟩
    rw [updateN, List.map_cons]
    have htail : List.map (fun p => if p.1 = k then (p.1, f p.2) else p) rest =
        updateN rest k f := rfl
    by_cases hpk : pk = k
    · subst hpk
      rw [if_pos rfl]
      by_cases hk' : pk = k'
      · subst hk'
        rw [lookupN, if_pos rfl, if_pos rfl, lookupN, if_pos rfl]
        rfl
      · rw [lookupN]
        simp only
        rw [if_neg hk', htail, ih]
        have hk2 : ¬ k' = pk := fun hc => hk' hc.symm
        rw [if_neg hk2, if_neg hk2, lookupN, if_neg hk']
    · rw [if_neg hpk]
      by_cases hk' : pk = k'
      · subst hk'
        have hk2 : ¬ pk = k := hpk
        rw [lookupN, if_pos rfl, if_neg (fun hc => hk2 (hc : pk = k)), lookupN, if_pos rfl]
      · rw [lookupN, if_neg hk', htail, ih]
        by_cases hk2 : k' = k
        · rw [if_pos hk2, if_pos hk2, lookupN, if_neg hk']
        · rw [if_neg hk2, if_neg hk2, lookupN, if_neg hk']

theorem addDepEdge_lookup (m : List (String × TechNode)) (key prereq : String) (k : String) :
    lookupN (addDepEdge m key prereq) k =
      (lookupN m k).map (fun n =>
        let n1 := if k = key then { n with dependencies := n.dependencies ++ [prereq] } else n
        if k = prereq then { n1 with dependents := n1.dependents ++ [key] } else n1) := by
  induction m with
  | nil => simp [addDepEdge, lookupN]
  | cons p rest ih =>
    rcases p with ⟨pk, pn⟩
    rw [addDepEdge, List.map_cons]
    have htail : List.map (fun p =>
        let n := p.2
        let n := if p.1 = key then { n with dependencies := n.dependencies ++ [prereq] } else n
        let n := if p.1 = prereq then { n with dependents := n.dependents ++ [key] } else n
        (p.1, n)) rest = addDepEdge rest key prereq := rfl
    by_cases hpk : pk = k
    · subst hpk
      rw [lookupN, if_pos rfl, lookupN, if_pos rfl]
      rfl
    · rw [lookupN, if_neg hpk, htail, ih, lookupN, if_neg hpk]

theorem addDepEdge_keys (m : List (String × TechNode)) (key prereq : String) :
    nodeKeys (addDepEdge m key prereq) = nodeKeys m := by
  rw [addDepEdge, nodeKeys, List.map_map, nodeKeys]
  apply List.map_congr_left
  intro p _
  rfl

theorem newNodes_keys (techs : List (String × Technology)) :
    nodeKeys (newNodes techs) = techs.map Prod.fst := by
  rw [newNodes, nodeKeys, List.map_map]
  apply List.map_congr_left
  intro p _
  rfl

theorem lookupN_newNodes (techs : List (String × Technology)) (k : String) :
    lookupN (newNodes techs) k = (lookupT techs k).map (fun t => { tech := t }) := by
  induction techs with
  | nil => rfl
  | cons p rest ih =>
    rcases p with ⟨pk, pt⟩
    rw [newNodes, List.map_cons, lookupN, lookupT]
    have htail : List.map (fun p => (p.1, ({ tech := p.2 } : TechNode))) rest =
        newNodes rest := rfl
    by_cases hp : pk = k
    · subst hp
      rw [if_pos rfl, if_pos rfl]
      rfl
    · rw [if_neg hp, if_neg hp, htail, ih]

theorem lookupT_mem : ∀ (techs : List (String × Technology)) (k : String) (t : Technology),
    lookupT techs k = some t → (k, t) ∈ techs := by
  intro techs
  induction techs with
  | nil => intro k t h; cases h
  | cons p rest ih =>
    intro k t h
    rcases p with ⟨pk, pt⟩
    rw [lookupT] at h
    by_cases hp : pk = k
    · subst hp
      rw [if_pos rfl] at h
      cases h
      exact List.mem_cons_self _ _
    · rw [if_neg hp] at h
      exact List.mem_cons_of_mem _ (ih k t h)

theorem addDepEdge_lookup_fields (m : List (String × TechNode)) (key prereq k : String)
    (n : TechNode) (h : lookupN (addDepEdge m key prereq) k = some n) :
    ∃ n', lookupN m k = some n' ∧ n.tech = n'.tech ∧ n.level = n'.level ∧
      n.visited = n'.visited ∧
      n.dependencies = n'.dependencies ++ (if k = key then [prereq] else []) ∧
      n.dependents = n'.dependents ++ (if k = prereq then [key] else []) := by
  rw [addDepEdge_lookup] at h
  cases hm : lookupN m k with
  | none => rw [hm] at h; cases h
  | some n' =>
    rw [hm] at h
    simp only [Option.map_some] at h
    refine ⟨n', rfl, ?_⟩
    cases h
    by_cases h1 : k = key
    · subst h1
      by_cases h2 : k = prereq
      · subst h2
        refine ⟨?_, ?_, ?_, ?_, ?_⟩ <;> simp
      · refine ⟨?_, ?_, ?_, ?_, ?_⟩ <;> simp [h2]
    · by_cases h2 : k = prereq
      · subst h2
        refine ⟨?_, ?_, ?_, ?_, ?_⟩ <;> simp [h1]
      · refine ⟨?_, ?_, ?_, ?_, ?_⟩ <;> simp [h1, h2]

theorem wireStep1_keys (key : String)
    (acc : List (String × TechNode) × List (String × String)) (q : String) :
    nodeKeys (wireStep1 key acc q).1 = nodeKeys acc.1 := by
  rw [wireStep1]
  by_cases hs : (lookupN acc.1 q).isSome = true
  · rw [if_pos hs]
    exact addDepEdge_keys acc.1 key q
  · rw [if_neg hs]

theorem innerFold_keys (key : String) : ∀ (ps : List String)
    (acc : List (String × TechNode) × List (String × String)),
    nodeKeys ((ps.foldl (wireStep1 key) acc).1) = nodeKeys acc.1 := by
  intro ps
  induction ps with
  | nil => intro acc; rfl
  | cons q ps ih =>
    intro acc
    rw [List.foldl_cons, ih, wireStep1_keys]

theorem wireStepN_keys (acc : List (String × TechNode) × List (String × String))
    (p : String × TechNode) :
    nodeKeys (wireStepN acc p).1 = nodeKeys acc.1 := by
  rw [wireStepN]
  exact innerFold_keys p.1 p.2.tech.prerequisites acc

theorem outerFold_keys : ∀ (ns : List (String × TechNode))
    (acc : List (String × TechNode) × List (String × String)),
    nodeKeys ((ns.foldl wireStepN acc).1) = nodeKeys acc.1 := by
  intro ns
  induction ns with
  | nil => intro acc; rfl
  | cons p ns ih =>
    intro acc
    rw [List.foldl_cons, ih, wireStepN_keys]

theorem wireStep1_warn_mono (key : String)
    (acc : List (String × TechNode) × List (String × String)) (q : String)
    (x : String × String) (hx : x ∈ acc.2) : x ∈ (wireStep1 key acc q).2 := by
  rw [wireStep1]
  by_cases hs : (lookupN acc.1 q).isSome = true
  · rw [if_pos hs]
    exact hx
  · rw [if_neg hs]
    exact List.mem_append_left _ hx

theorem innerFold_warn_mono (key : String) : ∀ (ps : List String)
    (acc : List (String × TechNode) × List (String × String)) (x : String × String),
    x ∈ acc.2 → x ∈ ((ps.foldl (wireStep1 key) acc).2) := by
  intro ps
  induction ps with
  | nil => intro acc x hx; exact hx
  | cons q ps ih =>
    intro acc x hx
    rw [List.foldl_cons]
    exact ih (wireStep1 key acc q) x (wireStep1_warn_mono key acc q x hx)

theorem wireStepN_warn_mono (acc : List (String × TechNode) × List (String × String))
    (p : String × TechNode) (x : String × String) (hx : x ∈ acc.2) :
    x ∈ (wireStepN acc p).2 := by
  rw [wireStepN]
  exact innerFold_warn_mono p.1 p.2.tech.prerequisites acc x hx

theorem outerFold_warn_mono : ∀ (ns : List (String × TechNode))
    (acc : List (String × TechNode) × List (String × String)) (x : String × String),
    x ∈ acc.2 → x ∈ ((ns.foldl wireStepN acc).2) := by
  intro ns
  induction ns with
  | nil => intro acc x hx; exact hx
  | cons p ns ih =>
    intro acc x hx
    rw [List.foldl_cons]
    exact ih (wireStepN acc p) x (wireStepN_warn_mono acc p x hx)

theorem innerFold_emits (key q : String) : ∀ (ps : List String)
    (acc : List (String × TechNode) × List (String × String)),
    q ∈ ps → q ∉ nodeKeys acc.1 →
    (key, q) ∈ ((ps.foldl (wireStep1 key) acc).2) := by
  intro ps
  induction ps with
  | nil => intro acc h; cases h
  | cons r ps ih =>
    intro acc hq hmiss
    rw [List.foldl_cons]
    rcases List.mem_cons.mp hq with rfl | hq2
    · have hnone : lookupN acc.1 q = none := (lookupN_eq_none_iff acc.1 q).mpr hmiss
      have hstep : wireStep1 key acc q = (acc.1, acc.2 ++ [(key, q)]) := by
        rw [wireStep1, hnone]
        rfl
      rw [hstep]
      exact innerFold_warn_mono key ps (acc.1, acc.2 ++ [(key, q)]) (key, q)
        (List.mem_append_right _ (List.mem_singleton.mpr rfl))
    · refine ih (wireStep1 key acc r) hq2 ?_
      rw [wireStep1_keys]
      exact hmiss

theorem outerFold_emits (key q : String) (n : TechNode) : ∀ (ns : List (String × TechNode))
    (acc : List (String × TechNode) × List (String × String)),
    (key, n) ∈ ns → q ∈ n.tech.prerequisites → q ∉ nodeKeys acc.1 →
    (key, q) ∈ ((ns.foldl wireStepN acc).2) := by
  intro ns
  induction ns with
  | nil => intro acc h; cases h
  | cons p ns ih =>
    intro acc hmem hq hmiss
    rw [List.foldl_cons]
    rcases List.mem_cons.mp hmem with heq | hmem2
    · have h1 : (key, q) ∈ ((n.tech.prerequisites).foldl (wireStep1 key) acc).2 :=
        innerFold_emits key q n.tech.prerequisites acc hq hmiss
      have h2 : wireStepN acc p = (n.tech.prerequisites).foldl (wireStep1 key) acc := by
        rw [← heq, wireStepN]
      rw [h2]
      exact outerFold_warn_mono ns _ (key, q) h1
    · refine ih (wireStepN acc p) hmem2 hq ?_
      rw [wireStepN_keys]
      exact hmiss

theorem wireInv_addDepEdge (nodes0 acc : List (String × TechNode)) (key prereq : String)
    (inv : WireInv nodes0 acc)
    (hkey : ∃ n0, lookupN nodes0 key = some n0 ∧ prereq ∈ n0.tech.prerequisites)
    (hpre : prereq ∈ nodeKeys acc) :
    WireInv nodes0 (addDepEdge acc key prereq) := by
  have hkeys : nodeKeys (addDepEdge acc key prereq) = nodeKeys acc :=
    addDepEdge_keys acc key prereq
  refine ⟨hkeys.trans inv.keysEq, ?_, ?_, ?_, ?_, ?_⟩
  · intro k n h
    obtain ⟨n', h', ht, hl, hv, _, _⟩ := addDepEdge_lookup_fields acc key prereq k n h
    obtain ⟨n0, h0, ht0, hl0, hv0⟩ := inv.base k n' h'
    exact ⟨n0, h0, ht.trans ht0, hl.trans hl0, hv.trans hv0⟩
  · intro k n d h hd
    obtain ⟨n', h', _, _, _, hdeps, _⟩ := addDepEdge_lookup_fields acc key prereq k n h
    rw [hdeps] at hd
    rcases List.mem_append.mp hd with hd1 | hd2
    · obtain ⟨hex, hin⟩ := inv.depsOrig k n' d h' hd1
      exact ⟨hex, hkeys ▸ hin⟩
    · by_cases hk : k = key
      · rw [if_pos hk] at hd2
        rcases List.mem_singleton.mp hd2 with rfl
        subst hk
        obtain ⟨n0, h0, hp0⟩ := hkey
        exact ⟨⟨n0, h0, hp0⟩, hkeys ▸ hpre⟩
      · rw [if_neg hk] at hd2
        cases hd2
  · intro k n d h hd dn hdn
    obtain ⟨n', h', _, _, _, hdeps, _⟩ := addDepEdge_lookup_fields acc key prereq k n h
    obtain ⟨dn', hdn', _, _, _, _, hdeps2⟩ := addDepEdge_lookup_fields acc key prereq d dn hdn
    rw [hdeps] at hd
    rw [hdeps2]
    rcases List.mem_append.mp hd with hd1 | hd2
    · exact List.mem_append_left _ (inv.mirror1 k n' d h' hd1 dn' hdn')
    · by_cases hk : k = key
      · rw [if_pos hk] at hd2
        rcases List.mem_singleton.mp hd2 with rfl
        subst hk
        rw [if_pos rfl]
        exact List.mem_append_right _ (List.mem_singleton.mpr rfl)
      · rw [if_neg hk] at hd2
        cases hd2
  · intro d dn k hdn hk n h
    obtain ⟨dn', hdn', _, _, _, _, hdeps2⟩ := addDepEdge_lookup_fields acc key prereq d dn hdn
    obtain ⟨n', h', _, _, _, hdeps, _⟩ := addDepEdge_lookup_fields acc key prereq k n h
    rw [hdeps2] at hk
    rw [hdeps]
    rcases List.mem_append.mp hk with hk1 | hk2
    · exact List.mem_append_left _ (inv.mirror2 d dn' k hdn' hk1 n' h')
    · by_cases hd : d = prereq
      · rw [if_pos hd] at hk2
        rcases List.mem_singleton.mp hk2 with rfl
        subst hd
        rw [if_pos rfl]
        exact List.mem_append_right _ (List.mem_singleton.mpr rfl)
      · rw [if_neg hd] at hk2
        cases hk2
  · intro d dn k hdn hk
    obtain ⟨dn', hdn', _, _, _, _, hdeps2⟩ := addDepEdge_lookup_fields acc key prereq d dn hdn
    rw [hdeps2] at hk
    rcases List.mem_append.mp hk with hk1 | hk2
    · exact hkeys ▸ inv.depcl d dn' k hdn' hk1
    · by_cases hd : d = prereq
      · rw [if_pos hd] at hk2
        rcases List.mem_singleton.mp hk2 with rfl
        obtain ⟨n0, h0, _⟩ := hkey
        have hks := (lookupN_isSome_iff nodes0 _).mp (by rw [h0]; rfl)
        rw [hkeys, inv.keysEq]
        exact hks
      · rw [if_neg hd] at hk2
        cases hk2

theorem wireInv_wireStep1 (nodes0 : List (String × TechNode)) (key : String)
    (acc : List (String × TechNode) × List (String × String)) (q : String)
    (inv : WireInv nodes0 acc.1)
    (hq : ∃ n0, lookupN nodes0 key = some n0 ∧ q ∈ n0.tech.prerequisites) :
    WireInv nodes0 (wireStep1 key acc q).1 := by
  rw [wireStep1]
  by_cases hs : (lookupN acc.1 q).isSome = true
  · rw [if_pos hs]
    exact wireInv_addDepEdge nodes0 acc.1 key q inv hq ((lookupN_isSome_iff acc.1 q).mp hs)
  · rw [if_neg hs]
    exact inv

theorem wireInv_innerFold (nodes0 : List (String × TechNode)) (key : String) :
    ∀ (ps : List String) (acc : List (String × TechNode) × List (String × String)),
    WireInv nodes0 acc.1 →
    (∀ q ∈ ps, ∃ n0, lookupN nodes0 key = some n0 ∧ q ∈ n0.tech.prerequisites) →
    WireInv nodes0 ((ps.foldl (wireStep1 key) acc).1) := by
  intro ps
  induction ps with
  | nil => intro acc inv _; exact inv
  | cons q ps ih =>
    intro acc inv hq
    rw [List.foldl_cons]
    exact ih (wireStep1 key acc q)
      (wireInv_wireStep1 nodes0 key acc q inv (hq q (List.mem_cons_self q ps)))
      (fun r hr => hq r (List.mem_cons_of_mem q hr))

theorem wireInv_outerFold (nodes0 : List (String × TechNode))
    (hnd : (nodeKeys nodes0).Nodup) :
    ∀ (ns : List (String × TechNode)) (acc : List (String × TechNode) × List (String × String)),
    (∀ p ∈ ns, p ∈ nodes0) → WireInv nodes0 acc.1 →
    WireInv nodes0 ((ns.foldl wireStepN acc).1) := by
  intro ns
  induction ns with
  | nil => intro acc _ inv; exact inv
  | cons p ns ih =>
    intro acc hmem inv
    rw [List.foldl_cons]
    refine ih (wireStepN acc p) (fun r hr => hmem r (List.mem_cons_of_mem p hr)) ?_
    rw [wireStepN]
    refine wireInv_innerFold nodes0 p.1 p.2.tech.prerequisites acc inv ?_
    intro q hq
    have hp : (p.1, p.2) ∈ nodes0 := hmem p (List.mem_cons_self p ns)
    exact ⟨p.2, lookupN_of_mem_nodup nodes0 p.1 p.2 hnd hp, hq⟩

theorem newNodes_fresh (techs : List (String × Technology)) (k : String) (n : TechNode)
    (h : lookupN (newNodes techs) k = some n) :
    n.dependencies = [] ∧ n.dependents = [] := by
  rw [lookupN_newNodes] at h
  cases ht : lookupT techs k with
  | none => rw [ht] at h; cases h
  | some t =>
    rw [ht] at h
    injection h with h2
    subst h2
    exact ⟨rfl, rfl⟩

theorem wireInv_init (techs : List (String × Technology)) :
    WireInv (newNodes techs) (newNodes techs) := by
  refine ⟨rfl, ?_, ?_, ?_, ?_, ?_⟩
  · intro k n h
    exact ⟨n, h, rfl, rfl, rfl⟩
  · intro k n d h hd
    rcases newNodes_fresh techs k n h with ⟨h1, _⟩
    rw [h1] at hd
    cases hd
  · intro k n d h hd _ _
    rcases newNodes_fresh techs k n h with ⟨h1, _⟩
    rw [h1] at hd
    cases hd
  · intro d dn k hdn hk n h
    rcases newNodes_fresh techs d dn hdn with ⟨_, h2⟩
    rw [h2] at hk
    cases hk
  · intro d dn k hdn hk
    rcases newNodes_fresh techs d dn hdn with ⟨_, h2⟩
    rw [h2] at hk
    cases hk

theorem wireInv_wireEdges (techs : List (String × Technology))
    (hnd : (nodeKeys (newNodes techs)).Nodup) :
    WireInv (newNodes techs) (wireEdges (newNodes techs)).1 := by
  rw [wireEdges]
  exact wireInv_outerFold (newNodes techs) hnd (newNodes techs) ((newNodes techs), [])
    (fun p hp => hp) (wireInv_init techs)

/-- C4: a prerequisite key matching no technology yields a non-fatal warning
`(key, prereq)` from the wiring phase, no node under that key and no
dependency edge to it anywhere; the tree is still built over the full key
set, and the node of a technology all of whose listed prerequisites are
unmatched ends with zero dependencies. -/
theorem newTechTree_missing_prereq (techs : List (String × Technology)) (key : String)
    (t : Technology) (hnd : (techs.map Prod.fst).Nodup)
    (hk : lookupT techs key = some t) :
    (∀ p ∈ t.prerequisites, p ∉ techs.map Prod.fst →
      (key, p) ∈ (wireEdges (newNodes techs)).2 ∧
      lookupN (wireEdges (newNodes techs)).1 p = none ∧
      (∀ k n, lookupN (wireEdges (newNodes techs)).1 k = some n → p ∉ n.dependencies)) ∧
    nodeKeys (wireEdges (newNodes techs)).1 = techs.map Prod.fst ∧
    (∃ n, lookupN (wireEdges (newNodes techs)).1 key = some n ∧ n.tech = t ∧
      ((∀ p ∈ t.prerequisites, p ∉ techs.map Prod.fst) → n.dependencies = [])) := by
  have hnd0 : (nodeKeys (newNodes techs)).Nodup := by
    rw [newNodes_keys]
    exact hnd
  have inv := wireInv_wireEdges techs hnd0
  have hkeys : nodeKeys (wireEdges (newNodes techs)).1 = techs.map Prod.fst :=
    inv.keysEq.trans (newNodes_keys techs)
  have hlk : lookupN (newNodes techs) key = some { tech := t } := by
    rw [lookupN_newNodes, hk]
    rfl
  refine ⟨?_, hkeys, ?_⟩
  · intro p hp hmiss
    refine ⟨?_, ?_, ?_⟩
    · rw [wireEdges]
      refine outerFold_emits key p { tech := t } (newNodes techs) ((newNodes techs), [])
        ?_ hp ?_
      · exact List.mem_map_of_mem (fun q => (q.1, ({ tech := q.2 } : TechNode)))
          (lookupT_mem techs key t hk)
      · show p ∉ nodeKeys (newNodes techs)
        rw [newNodes_keys]
        exact hmiss
    · exact (lookupN_eq_none_iff _ p).mpr (by rw [hkeys]; exact hmiss)
    · intro k n hkn hdep
      exact hmiss (hkeys ▸ (inv.depsOrig k n p hkn hdep).2)
  · have hsome : (lookupN (wireEdges (newNodes techs)).1 key).isSome = true := by
      rw [lookupN_isSome_iff, hkeys]
      exact List.mem_map_of_mem Prod.fst (lookupT_mem techs key t hk)
    obtain ⟨n, hn⟩ := Option.isSome_iff_exists.mp hsome
    obtain ⟨n0, h0, ht0, _, _⟩ := inv.base key n hn
    rw [hlk] at h0
    injection h0 with h0
    refine ⟨n, hn, ?_, ?_⟩
    · rw [ht0, ← h0]
    · intro hall
      refine List.eq_nil_iff_forall_not_mem.mpr ?_
      intro d hd
      obtain ⟨⟨m0, hm0, hdp⟩, hdk⟩ := inv.depsOrig key n d hn hd
      rw [hlk] at hm0
      injection hm0 with hm0
      rw [← hm0] at hdp
      exact hall d hdp (hkeys ▸ hdk)

/-- C4 witness: in the concrete two-technology set, the unmatched prerequisite
of `a` produces the warning and no node. -/
theorem newTechTree_missing_prereq_witness :
    ((techsC4.map Prod.fst).Nodup ∧ lookupT techsC4 "a" = some techC4a) ∧
    ("a", "zz") ∈ (wireEdges (newNodes techsC4)).2 ∧
    lookupN (wireEdges (newNodes techsC4)).1 "zz" = none := by
  have hnd : (techsC4.map Prod.fst).Nodup := by decide
  have hk : lookupT techsC4 "a" = some techC4a := rfl
  have h := newTechTree_missing_prereq techsC4 "a" techC4a hnd hk
  have h1 := h.1 "zz" (by decide) (by decide)
  exact ⟨⟨hnd, hk⟩, h1.1, h1.2.1⟩

theorem levelStep_none (st : LevelState) (k : String) (rest : List String)
    (h : lookupN st.nodes k = none) :
    levelStep st k rest = { st with queue := rest } := by
  rw [levelStep, h]

theorem levelStep_visited (st : LevelState) (k : String) (rest : List String) (n : TechNode)
    (h : lookupN st.nodes k = some n) (hv : n.visited = true) :
    levelStep st k rest = { st with queue := rest } := by
  rw [levelStep, h]
  simp [hv]

theorem levelStep_final (st : LevelState) (k : String) (rest : List String) (n : TechNode)
    (h : lookupN st.nodes k = some n) (hv : n.visited = false)
    (ha : allDepsVisited (updateN st.nodes k (fun m => { m with visited := true }))
      n.dependencies = true) :
    levelStep st k rest =
      ⟨updateN (updateN st.nodes k (fun m => { m with visited := true })) k
          (fun m => { m with level := maxDepLevel (updateN st.nodes k (fun m2 => { m2 with visited := true })) n.dependencies + 1 }),
        rest ++ n.dependents,
        if maxDepLevel (updateN st.nodes k (fun m => { m with visited := true }))
              n.dependencies + 1 > st.maxLevel
          then maxDepLevel (updateN st.nodes k (fun m => { m with visited := true }))
              n.dependencies + 1
          else st.maxLevel⟩ := by
  rw [levelStep, h]
  simp [hv, ha]

theorem levelStep_requeue (st : LevelState) (k : String) (rest : List String) (n : TechNode)
    (h : lookupN st.nodes k = some n) (hv : n.visited = false)
    (ha : allDepsVisited (updateN st.nodes k (fun m => { m with visited := true }))
      n.dependencies = false) :
    levelStep st k rest =
      ⟨updateN st.nodes k (fun m => { m with visited := true }), rest ++ [k], st.maxLevel⟩ := by
  rw [levelStep, h]
  simp [hv, ha]

theorem visitedB_updateN_pres (nodes : List (String × TechNode)) (k : String)
    (f : TechNode → TechNode) (hf : ∀ m, (f m).visited = m.visited) (d : String) :
    visitedB (updateN nodes k f) d = visitedB nodes d := by
  rw [visitedB, visitedB, lookupN_updateN]
  by_cases hd : d = k
  · rw [if_pos hd]
    cases lookupN nodes d with
    | none => rfl
    | some n =>
      show (f n).visited = n.visited
      exact hf n
  · rw [if_neg hd]

theorem lookupN_mark_set (nodes : List (String × TechNode)) (k : String) (lvl : Int)
    (q : String) :
    lookupN (updateN (updateN nodes k (fun m => { m with visited := true })) k
        (fun m => { m with level := lvl })) q =
      if q = k then (lookupN nodes q).map (fun m => { m with visited := true, level := lvl })
      else lookupN nodes q := by
  rw [lookupN_updateN, lookupN_updateN]
  by_cases hq : q = k
  · rw [if_pos hq, if_pos hq, if_pos hq]
    cases lookupN nodes q <;> rfl
  · rw [if_neg hq, if_neg hq, if_neg hq]

theorem allDepsVisited_iff (nodes : List (String × TechNode)) (deps : List String) :
    allDepsVisited nodes deps = true ↔ ∀ d ∈ deps, visitedB nodes d = true := by
  rw [allDepsVisited, List.all_eq_true]
  constructor <;> intro h d hd <;> exact h d hd

theorem visitedB_updateN_ne (nodes : List (String × TechNode)) (k : String)
    (f : TechNode → TechNode) (d : String) (hd : d ≠ k) :
    visitedB (updateN nodes k f) d = visitedB nodes d := by
  rw [visitedB, visitedB, lookupN_updateN, if_neg hd]

theorem visitedB_updateN_self (nodes : List (String × TechNode)) (k : String)
    (f : TechNode → TechNode) (hf : ∀ m, (f m).visited = true)
    (hs : (lookupN nodes k).isSome = true) :
    visitedB (updateN nodes k f) k = true := by
  obtain ⟨n, hn⟩ := Option.isSome_iff_exists.mp hs
  rw [visitedB, lookupN_updateN, if_pos rfl, hn]
  exact hf n

theorem visitedB_updateN_mono (nodes : List (String × TechNode)) (k : String)
    (f : TechNode → TechNode) (d : String) (hf : ∀ m, (f m).visited = true)
    (h : visitedB nodes d = true) : visitedB (updateN nodes k f) d = true := by
  by_cases hd : d = k
  · subst hd
    refine visitedB_updateN_self nodes d f hf ?_
    rw [visitedB] at h
    cases hl : lookupN nodes d
    · rw [hl] at h
      cases h
    · rfl
  · rw [visitedB_updateN_ne nodes k f d hd]
    exact h

theorem le_foldl_max (nodes : List (String × TechNode)) : ∀ (deps : List String) (a : Int),
    a ≤ deps.foldl (depStep nodes) a := by
  intro deps
  induction deps with
  | nil => intro a; exact le_refl a
  | cons d ds ih =>
    intro a
    rw [List.foldl_cons]
    refine le_trans ?_ (ih _)
    rw [depStep]
    cases hl : lookupN nodes d
    · exact le_refl a
    · exact le_max_left a _

theorem maxDepLevel_ge (nodes : List (String × TechNode)) (deps : List String) :
    -1 ≤ maxDepLevel nodes deps :=
  le_foldl_max nodes deps (-1)

theorem depStep_congr (nodes1 nodes2 : List (String × TechNode)) (d : String)
    (h : (lookupN nodes1 d).map (fun n => n.level) = (lookupN nodes2 d).map (fun n => n.level)) :
    ∀ a, depStep nodes1 a d = depStep nodes2 a d := by
  intro a
  rw [depStep, depStep]
  cases h1 : lookupN nodes1 d with
  | none =>
    cases h2 : lookupN nodes2 d with
    | none => rfl
    | some n2 => rw [h1, h2] at h; cases h
  | some n1 =>
    cases h2 : lookupN nodes2 d with
    | none => rw [h1, h2] at h; cases h
    | some n2 =>
      rw [h1, h2] at h
      injection h with h
      have h5 : n1.level = n2.level := h
      show max a n1.level = max a n2.level
      rw [h5]

theorem maxDepLevel_ext (nodes1 nodes2 : List (String × TechNode)) : ∀ (deps : List String),
    (∀ d ∈ deps, (lookupN nodes1 d).map (fun n => n.level) =
      (lookupN nodes2 d).map (fun n => n.level)) →
    maxDepLevel nodes1 deps = maxDepLevel nodes2 deps := by
  suffices H : ∀ (ds : List String) (a : Int),
      (∀ d ∈ ds, (lookupN nodes1 d).map (fun n => n.level) =
        (lookupN nodes2 d).map (fun n => n.level)) →
      ds.foldl (depStep nodes1) a = ds.foldl (depStep nodes2) a from
    fun deps h => H deps (-1) h
  intro ds
  induction ds with
  | nil => intro a _; rfl
  | cons d ds ih =>
    intro a hds
    rw [List.foldl_cons, List.foldl_cons,
      depStep_congr nodes1 nodes2 d (hds d (List.mem_cons_self d ds)) a]
    exact ih _ (fun d2 hd2 => hds d2 (List.mem_cons_of_mem d hd2))

theorem maxDepLevel_updateN (nodes : List (String × TechNode)) (k : String)
    (f : TechNode → TechNode) (deps : List String) (hk : k ∉ deps) :
    maxDepLevel (updateN nodes k f) deps = maxDepLevel nodes deps := by
  refine maxDepLevel_ext _ _ deps ?_
  intro d hd
  have hdk : d ≠ k := fun hc => hk (hc ▸ hd)
  rw [lookupN_updateN, if_neg hdk]

theorem maxDepLevel_updateN_level (nodes : List (String × TechNode)) (k : String)
    (f : TechNode → TechNode) (hf : ∀ n, (f n).level = n.level) (deps : List String) :
    maxDepLevel (updateN nodes k f) deps = maxDepLevel nodes deps := by
  refine maxDepLevel_ext _ _ deps ?_
  intro d _
  rw [lookupN_updateN]
  by_cases hd : d = k
  · rw [if_pos hd]
    cases lookupN nodes d with
    | none => rfl
    | some n =>
      show some (f n).level = some n.level
      rw [hf n]
  · rw [if_neg hd]

theorem updateN_cons (p : String × TechNode) (rest : List (String × TechNode)) (k : String)
    (f : TechNode → TechNode) :
    updateN (p :: rest) k f = (if p.1 = k then (p.1, f p.2) else p) :: updateN rest k f := by
  rw [updateN, List.map_cons]
  rfl

theorem unvisitedCount_update_le (k : String) (f : TechNode → TechNode)
    (hf : ∀ m, (f m).visited = true) :
    ∀ (nodes : List (String × TechNode)),
    unvisitedCount (updateN nodes k f) ≤ unvisitedCount nodes := by
  intro nodes
  induction nodes with
  | nil => exact Nat.le_refl 0
  | cons p rest ih =>
    rw [unvisitedCount, unvisitedCount, updateN_cons, List.filter_cons, List.filter_cons]
    by_cases hp : p.1 = k
    · rw [if_pos hp]
      cases hv : p.2.visited with
      | false => simp [hf p.2, hv]; exact le_trans ih (Nat.le_succ _)
      | true => simp [hf p.2, hv]; exact ih
    · rw [if_neg hp]
      cases hv : p.2.visited with
      | false => simp [hv]; exact ih
      | true => simp [hv]; exact ih

theorem unvisitedCount_update_congr (k : String) (f : TechNode → TechNode)
    (hf : ∀ m, (f m).visited = m.visited) :
    ∀ (nodes : List (String × TechNode)),
    unvisitedCount (updateN nodes k f) = unvisitedCount nodes := by
  intro nodes
  induction nodes with
  | nil => rfl
  | cons p rest ih =>
    rw [unvisitedCount, unvisitedCount, updateN_cons, List.filter_cons, List.filter_cons]
    by_cases hp : p.1 = k
    · rw [if_pos hp]
      cases hv : p.2.visited with
      | false => simp [hf p.2, hv]; exact ih
      | true => simp [hf p.2, hv]; exact ih
    · rw [if_neg hp]
      cases hv : p.2.visited with
      | false => simp [hv]; exact ih
      | true => simp [hv]; exact ih

theorem unvisitedCount_mark_lt (k : String) (f : TechNode → TechNode)
    (hf : ∀ m, (f m).visited = true) :
    ∀ (nodes : List (String × TechNode)) (n : TechNode),
    lookupN nodes k = some n → n.visited = false →
    unvisitedCount (updateN nodes k f) < unvisitedCount nodes := by
  intro nodes
  induction nodes with
  | nil => intro n h; cases h
  | cons p rest ih =>
    intro n h hv
    rcases p with ⟨pk, pn⟩
    rw [lookupN] at h
    rw [unvisitedCount, unvisitedCount, updateN_cons, List.filter_cons, List.filter_cons]
    by_cases hp : pk = k
    · rw [if_pos hp] at h
      injection h with h
      subst h
      rw [if_pos hp]
      simp [hf, hv]
      exact Nat.lt_succ_of_le (unvisitedCount_update_le k f hf rest)
    · rw [if_neg hp] at h
      rw [if_neg hp]
      have hlt := ih n h hv
      cases hvv : pn.visited with
      | false => simp [hvv]; exact hlt
      | true => simp [hvv]; exact hlt

theorem rootKeys_sub (nodes : List (String × TechNode)) :
    ∀ k ∈ rootKeys nodes, k ∈ nodeKeys nodes := by
  intro k hk
  rw [rootKeys] at hk
  obtain ⟨p, hp, hpk⟩ := List.mem_map.mp hk
  rw [← hpk]
  exact List.mem_map_of_mem Prod.fst (List.mem_of_mem_filter hp)

theorem mem_rootKeys (nodes : List (String × TechNode)) (k : String) (n : TechNode)
    (h : lookupN nodes k = some n) (hdeps : n.dependencies = []) :
    k ∈ rootKeys nodes := by
  have hm := lookupN_mem nodes k n h
  rw [rootKeys]
  refine List.mem_map.mpr ⟨(k, n), List.mem_filter.mpr ⟨hm, ?_⟩, rfl⟩
  simp [hdeps]

theorem lookupN_updateN_some (nodes : List (String × TechNode)) (k : String)
    (f : TechNode → TechNode) (q : String) (n : TechNode)
    (h : lookupN (updateN nodes k f) q = some n) :
    ∃ n0, lookupN nodes q = some n0 ∧ ((q = k ∧ n = f n0) ∨ (q ≠ k ∧ n = n0)) := by
  rw [lookupN_updateN] at h
  by_cases hq : q = k
  · rw [if_pos hq] at h
    cases h0 : lookupN nodes q with
    | none => rw [h0] at h; cases h
    | some n0 =>
      rw [h0] at h
      injection h with h
      exact ⟨n0, rfl, Or.inl ⟨hq, h.symm⟩⟩
  · rw [if_neg hq] at h
    exact ⟨n, h, Or.inr ⟨hq, rfl⟩⟩

theorem graphWF_updateN (nodes : List (String × TechNode)) (rank : String → Nat)
    (k : String) (f : TechNode → TechNode)
    (hdep : ∀ n, (f n).dependencies = n.dependencies)
    (hdepd : ∀ n, (f n).dependents = n.dependents)
    (wf : GraphWF nodes rank) : GraphWF (updateN nodes k f) rank := by
  have hkeys := updateN_keys nodes k f
  have hdeps2 : ∀ q n, lookupN (updateN nodes k f) q = some n →
      ∃ n0, lookupN nodes q = some n0 ∧ n.dependencies = n0.dependencies ∧
        n.dependents = n0.dependents := by
    intro q n h
    obtain ⟨n0, h0, hc⟩ := lookupN_updateN_some nodes k f q n h
    rcases hc with ⟨hqk, he⟩ | ⟨hqk, he⟩
    · subst he
      exact ⟨n0, h0, hdep n0, hdepd n0⟩
    · subst he
      exact ⟨_, h0, rfl, rfl⟩
  refine ⟨hkeys ▸ wf.nodup, ?_, ?_, ?_, ?_, ?_⟩
  · intro q n h d hd
    obtain ⟨n0, h0, he, _⟩ := hdeps2 q n h
    rw [he] at hd
    exact hkeys ▸ wf.depsClosed q n0 h0 d hd
  · intro d dn h q hq
    obtain ⟨n0, h0, _, he⟩ := hdeps2 d dn h
    rw [he] at hq
    exact hkeys ▸ wf.depdsClosed d n0 h0 q hq
  · intro q n d h hd dn hdn
    obtain ⟨n0, h0, he, _⟩ := hdeps2 q n h
    obtain ⟨dn0, hd0, _, he2⟩ := hdeps2 d dn hdn
    rw [he] at hd
    rw [he2]
    exact wf.mirror1 q n0 d h0 hd dn0 hd0
  · intro d dn q hdn hq n h
    obtain ⟨dn0, hd0, _, he2⟩ := hdeps2 d dn hdn
    obtain ⟨n0, h0, he, _⟩ := hdeps2 q n h
    rw [he2] at hq
    rw [he]
    exact wf.mirror2 d dn0 q hd0 hq n0 h0
  · intro q n h d hd
    obtain ⟨n0, h0, he, _⟩ := hdeps2 q n h
    rw [he] at hd
    exact wf.rankLt q n0 h0 d hd

theorem levelInv_mk (nodes : List (String × TechNode)) (queue : List String) (maxLevel : Int)
    (lvlOr : ∀ k n, lookupN nodes k = some n → n.level = 0 ∨
      (n.visited = true ∧ (∀ d ∈ n.dependencies, visitedB nodes d = true) ∧
        n.level = maxDepLevel nodes n.dependencies + 1))
    (qkeys : ∀ k ∈ queue, k ∈ nodeKeys nodes)
    (nonneg : ∀ k n, lookupN nodes k = some n → 0 ≤ n.level)
    (maxNonneg : 0 ≤ maxLevel)
    (maxUb : ∀ k n, lookupN nodes k = some n → n.level ≤ maxLevel)
    (maxEx : maxLevel = 0 ∨ ∃ k n, lookupN nodes k = some n ∧ n.visited = true ∧
      n.level = maxLevel) :
    LevelInv ⟨nodes, queue, maxLevel⟩ :=
  ⟨lvlOr, qkeys, nonneg, maxNonneg, maxUb, maxEx⟩

theorem levelStep_inv (rank : String → Nat) (st : LevelState) (k : String) (rest : List String)
    (wf : GraphWF st.nodes rank) (inv : LevelInv st) (hq : st.queue = k :: rest) :
    GraphWF (levelStep st k rest).nodes rank ∧ LevelInv (levelStep st k rest) := by
  have hqsub : ∀ q ∈ rest, q ∈ nodeKeys st.nodes :=
    fun q hqm => inv.qkeys q (by rw [hq]; exact List.mem_cons_of_mem k hqm)
  cases hlk : lookupN st.nodes k with
  | none =>
    rw [levelStep_none st k rest hlk]
    exact ⟨wf, levelInv_mk st.nodes rest st.maxLevel inv.lvlOr hqsub inv.nonneg
      inv.maxNonneg inv.maxUb inv.maxEx⟩
  | some node =>
    cases hvis : node.visited with
    | true =>
      rw [levelStep_visited st k rest node hlk hvis]
      exact ⟨wf, levelInv_mk st.nodes rest st.maxLevel inv.lvlOr hqsub inv.nonneg
        inv.maxNonneg inv.maxUb inv.maxEx⟩
    | false =>
      have hkk : k ∈ nodeKeys st.nodes := (lookupN_isSome_iff st.nodes k).mp (by rw [hlk]; rfl)
      have hvB1 : ∀ d, visitedB st.nodes d = true →
          visitedB (updateN st.nodes k (fun m => { m with visited := true })) d = true :=
        fun d h => visitedB_updateN_mono st.nodes k
          (fun m => { m with visited := true }) d (fun m => rfl) h
      cases ha : allDepsVisited (updateN st.nodes k (fun m => { m with visited := true }))
          node.dependencies with
      | false =>
        rw [levelStep_requeue st k rest node hlk hvis ha]
        constructor
        · exact graphWF_updateN st.nodes rank k (fun m => { m with visited := true })
            (fun m => rfl) (fun m => rfl) wf
        · refine levelInv_mk _ _ _ ?_ ?_ ?_ inv.maxNonneg ?_ ?_
          · intro q n2 h2
            obtain ⟨n0, h0, hc⟩ := lookupN_updateN_some st.nodes k _ q n2 h2
            rcases hc with ⟨hqk, he⟩ | ⟨hqk, rfl⟩
            · left
              rw [hqk] at h0
              rw [hlk] at h0
              injection h0 with h0
              rcases inv.lvlOr k node hlk with hl0 | ⟨hvt, _, _⟩
              · rw [he]
                show n0.level = 0
                rw [← h0]
                exact hl0
              · rw [hvis] at hvt
                cases hvt
            · rcases inv.lvlOr q n2 h0 with hl0 | ⟨hvt, hdv, hlv⟩
              · exact Or.inl hl0
              · refine Or.inr ⟨hvt, ?_, ?_⟩
                · intro d hd
                  exact hvB1 d (hdv d hd)
                · rw [maxDepLevel_updateN_level st.nodes k
                    (fun m => { m with visited := true }) (fun m => rfl) n2.dependencies]
                  exact hlv
          · intro q hqm
            rw [updateN_keys]
            rcases List.mem_append.mp hqm with h3 | h3
            · exact hqsub q h3
            · rcases List.mem_singleton.mp h3 with rfl
              exact hkk
          · intro q n2 h2
            obtain ⟨n0, h0, hc⟩ := lookupN_updateN_some st.nodes k _ q n2 h2
            rcases hc with ⟨hqk, he⟩ | ⟨hqk, rfl⟩
            · rw [he]
              show 0 ≤ n0.level
              exact inv.nonneg q n0 h0
            · exact inv.nonneg q n2 h0
          · intro q n2 h2
            obtain ⟨n0, h0, hc⟩ := lookupN_updateN_some st.nodes k _ q n2 h2
            rcases hc with ⟨hqk, he⟩ | ⟨hqk, rfl⟩
            · rw [he]
              show n0.level ≤ st.maxLevel
              exact inv.maxUb q n0 h0
            · exact inv.maxUb q n2 h0
          · rcases inv.maxEx with h8 | ⟨k0, n0, h8, hv8, hl8⟩
            · exact Or.inl h8
            · right
              have hk0 : k0 ≠ k := by
                intro hc
                subst hc
                rw [hlk] at h8
                injection h8 with h8
                rw [← h8] at hv8
                rw [hvis] at hv8
                cases hv8
              refine ⟨k0, n0, ?_, hv8, hl8⟩
              rw [lookupN_updateN, if_neg hk0]
              exact h8
      | true =>
        have hself : k ∉ node.dependencies :=
          fun hc => absurd (wf.rankLt k node hlk k hc) (lt_irrefl _)
        have hml : maxDepLevel (updateN st.nodes k (fun m => { m with visited := true }))
            node.dependencies = maxDepLevel st.nodes node.dependencies :=
          maxDepLevel_updateN_level st.nodes k (fun m => { m with visited := true })
            (fun m => rfl) node.dependencies
        have hA1 : ∀ d ∈ node.dependencies,
            visitedB (updateN st.nodes k (fun m => { m with visited := true })) d = true :=
          (allDepsVisited_iff _ node.dependencies).mp ha
        rw [levelStep_final st k rest node hlk hvis ha]
        simp only [hml]
        have hvB2 : ∀ d, visitedB (updateN (updateN st.nodes k
              (fun m => { m with visited := true })) k
              (fun m => { m with level := maxDepLevel st.nodes node.dependencies + 1 })) d =
            visitedB (updateN st.nodes k (fun m => { m with visited := true })) d :=
          fun d => visitedB_updateN_pres
            (updateN st.nodes k (fun m => { m with visited := true })) k
            (fun m => { m with level := maxDepLevel st.nodes node.dependencies + 1 })
            (fun m => rfl) d
        have hmd21 : ∀ deps2, k ∉ deps2 →
            maxDepLevel (updateN (updateN st.nodes k
              (fun m => { m with visited := true })) k
              (fun m => { m with level := maxDepLevel st.nodes node.dependencies + 1 })) deps2 =
            maxDepLevel st.nodes deps2 := by
          intro deps2 hk2
          rw [maxDepLevel_updateN _ k _ deps2 hk2]
          exact maxDepLevel_updateN_level st.nodes k (fun m => { m with visited := true })
            (fun m => rfl) deps2
        constructor
        · refine graphWF_updateN _ rank k
            (fun m => { m with level := maxDepLevel st.nodes node.dependencies + 1 })
            (fun m => rfl) (fun m => rfl) ?_
          exact graphWF_updateN st.nodes rank k (fun m => { m with visited := true })
            (fun m => rfl) (fun m => rfl) wf
        · refine levelInv_mk _ _ _ ?_ ?_ ?_ ?_ ?_ ?_
          · intro q n2 h2
            rw [lookupN_mark_set] at h2
            by_cases hqk : q = k
            · rw [if_pos hqk] at h2
              rw [hqk] at h2
              rw [hlk] at h2
              injection h2 with h2
              right
              refine ⟨?_, ?_, ?_⟩
              · rw [← h2]
              · intro d hd
                rw [← h2] at hd
                have hd2 : d ∈ node.dependencies := hd
                rw [hvB2 d]
                exact hA1 d hd2
              · rw [← h2]
                show maxDepLevel st.nodes node.dependencies + 1 =
                  maxDepLevel (updateN (updateN st.nodes k
                    (fun m => { m with visited := true })) k
                    (fun m => { m with level := maxDepLevel st.nodes node.dependencies + 1 }))
                    node.dependencies + 1
                rw [hmd21 node.dependencies hself]
            · rw [if_neg hqk] at h2
              rcases inv.lvlOr q n2 h2 with hl0 | ⟨hvt, hdv, hlv⟩
              · exact Or.inl hl0
              · right
                have hknd : k ∉ n2.dependencies := by
                  intro hc
                  have h6 := hdv k hc
                  rw [visitedB, hlk] at h6
                  have hvt2 : node.visited = true := h6
                  rw [hvis] at hvt2
                  cases hvt2
                refine ⟨hvt, ?_, ?_⟩
                · intro d hd
                  rw [hvB2 d]
                  exact hvB1 d (hdv d hd)
                · rw [hmd21 n2.dependencies hknd]
                  exact hlv
          · intro q hqm
            rw [updateN_keys, updateN_keys]
            rcases List.mem_append.mp hqm with h3 | h3
            · exact hqsub q h3
            · exact wf.depdsClosed k node hlk q h3
          · intro q n2 h2
            rw [lookupN_mark_set] at h2
            by_cases hqk : q = k
            · rw [if_pos hqk] at h2
              rw [hqk] at h2
              rw [hlk] at h2
              injection h2 with h2
              rw [← h2]
              show 0 ≤ maxDepLevel st.nodes node.dependencies + 1
              have h7 := maxDepLevel_ge st.nodes node.dependencies
              omega
            · rw [if_neg hqk] at h2
              exact inv.nonneg q n2 h2
          · by_cases hgt : maxDepLevel st.nodes node.dependencies + 1 > st.maxLevel
            · rw [if_pos hgt]
              have h7 := maxDepLevel_ge st.nodes node.dependencies
              omega
            · rw [if_neg hgt]
              exact inv.maxNonneg
          · intro q n2 h2
            rw [lookupN_mark_set] at h2
            by_cases hqk : q = k
            · rw [if_pos hqk] at h2
              rw [hqk] at h2
              rw [hlk] at h2
              injection h2 with h2
              rw [← h2]
              show maxDepLevel st.nodes node.dependencies + 1 ≤ _
              by_cases hgt : maxDepLevel st.nodes node.dependencies + 1 > st.maxLevel
              · rw [if_pos hgt]
              · rw [if_neg hgt]
                exact not_lt.mp hgt
            · rw [if_neg hqk] at h2
              by_cases hgt : maxDepLevel st.nodes node.dependencies + 1 > st.maxLevel
              · rw [if_pos hgt]
                exact le_trans (inv.maxUb q n2 h2) (le_of_lt hgt)
              · rw [if_neg hgt]
                exact inv.maxUb q n2 h2
          · by_cases hgt : maxDepLevel st.nodes node.dependencies + 1 > st.maxLevel
            · right
              have hlook2 : lookupN (updateN (updateN st.nodes k
                  (fun m => { m with visited := true })) k
                  (fun m => { m with level := maxDepLevel st.nodes node.dependencies + 1 })) k =
                  some { node with visited := true, level := maxDepLevel st.nodes node.dependencies + 1 } := by
                rw [lookupN_mark_set, if_pos rfl, hlk]
                rfl
              refine ⟨k, _, hlook2, rfl, ?_⟩
              rw [if_pos hgt]
            · rcases inv.maxEx with h8 | ⟨k0, n0, h8, hv8, hl8⟩
              · left
                rw [if_neg hgt]
                exact h8
              · right
                have hk0 : k0 ≠ k := by
                  intro hc
                  subst hc
                  rw [hlk] at h8
                  injection h8 with h8
                  rw [← h8] at hv8
                  rw [hvis] at hv8
                  cases hv8
                refine ⟨k0, n0, ?_, hv8, ?_⟩
                · rw [lookupN_mark_set, if_neg hk0]
                  exact h8
                · rw [if_neg hgt]
                  exact hl8

theorem levelLoop_inv (rank : String → Nat) : ∀ (fuel : Nat) (st st' : LevelState),
    GraphWF st.nodes rank → LevelInv st → levelLoop fuel st = some st' →
    GraphWF st'.nodes rank ∧ LevelInv st' ∧ st'.queue = [] := by
  intro fuel
  induction fuel with
  | zero => intro st st' _ _ h; cases h
  | succ fuel ih =>
    intro st st' wf inv h
    rw [levelLoop] at h
    cases hq : st.queue with
    | nil =>
      rw [hq] at h
      injection h with h
      subst h
      exact ⟨wf, inv, hq⟩
    | cons k rest =>
      rw [hq] at h
      obtain ⟨wf2, inv2⟩ := levelStep_inv rank st k rest wf inv hq
      exact ih (levelStep st k rest) st' wf2 inv2 h

theorem wireEdges_fresh_flags (techs : List (String × Technology))
    (hnd0 : (nodeKeys (newNodes techs)).Nodup) (k : String) (n : TechNode)
    (h : lookupN (wireEdges (newNodes techs)).1 k = some n) :
    n.visited = false ∧ n.level = 0 := by
  obtain ⟨n0, h0, _, hl, hv⟩ := (wireInv_wireEdges techs hnd0).base k n h
  rw [lookupN_newNodes] at h0
  cases ht : lookupT techs k with
  | none => rw [ht] at h0; cases h0
  | some t =>
    rw [ht] at h0
    injection h0 with h0
    constructor
    · rw [hv, ← h0]
    · rw [hl, ← h0]

theorem levelInv_initial (techs : List (String × Technology))
    (hnd : (techs.map Prod.fst).Nodup) : LevelInv (initialState techs).1 := by
  have hnd0 : (nodeKeys (newNodes techs)).Nodup := by
    rw [newNodes_keys]
    exact hnd
  have hflags := wireEdges_fresh_flags techs hnd0
  refine levelInv_mk (wireEdges (newNodes techs)).1 (rootKeys (wireEdges (newNodes techs)).1) 0
    ?_ (rootKeys_sub (wireEdges (newNodes techs)).1) ?_ (le_refl 0) ?_ (Or.inl rfl)
  · intro k n h
    exact Or.inl (hflags k n h).2
  · intro k n h
    rw [(hflags k n h).2]
  · intro k n h
    rw [(hflags k n h).2]

theorem levelStep_frame (st : LevelState) (k : String) (rest : List String) (q : String) :
    (lookupN (levelStep st k rest).nodes q).map (fun n => (n.tech, n.dependencies, n.dependents)) =
    (lookupN st.nodes q).map (fun n => (n.tech, n.dependencies, n.dependents)) := by
  cases h : lookupN st.nodes k with
  | none => rw [levelStep_none st k rest h]
  | some node =>
    cases hv : node.visited with
    | true => rw [levelStep_visited st k rest node h hv]
    | false =>
      cases ha : allDepsVisited (updateN st.nodes k (fun m => { m with visited := true }))
          node.dependencies with
      | false =>
        rw [levelStep_requeue st k rest node h hv ha]
        show (lookupN (updateN st.nodes k (fun m => { m with visited := true })) q).map
            (fun n => (n.tech, n.dependencies, n.dependents)) =
          (lookupN st.nodes q).map (fun n => (n.tech, n.dependencies, n.dependents))
        rw [lookupN_updateN]
        by_cases hqk : q = k
        · rw [if_pos hqk]
          cases lookupN st.nodes q <;> rfl
        · rw [if_neg hqk]
      | true =>
        rw [levelStep_final st k rest node h hv ha]
        show (lookupN (updateN (updateN st.nodes k (fun m => { m with visited := true })) k
              (fun m => { m with level := maxDepLevel (updateN st.nodes k (fun m2 => { m2 with visited := true })) node.dependencies + 1 })) q).map
            (fun n => (n.tech, n.dependencies, n.dependents)) =
          (lookupN st.nodes q).map (fun n => (n.tech, n.dependencies, n.dependents))
        rw [lookupN_mark_set]
        by_cases hqk : q = k
        · rw [if_pos hqk]
          cases lookupN st.nodes q <;> rfl
        · rw [if_neg hqk]

theorem levelLoop_frame : ∀ (fuel : Nat) (st st' : LevelState), levelLoop fuel st = some st' →
    ∀ q, (lookupN st'.nodes q).map (fun n => (n.tech, n.dependencies, n.dependents)) =
      (lookupN st.nodes q).map (fun n => (n.tech, n.dependencies, n.dependents)) := by
  intro fuel
  induction fuel with
  | zero => intro st st' h; cases h
  | succ fuel ih =>
    intro st st' h q
    rw [levelLoop] at h
    cases hq : st.queue with
    | nil =>
      rw [hq] at h
      injection h with h
      subst h
      rfl
    | cons k rest =>
      rw [hq] at h
      exact (ih (levelStep st k rest) st' h q).trans (levelStep_frame st k rest q)

theorem graphWF_wireEdges (techs : List (String × Technology)) (rank : String → Nat)
    (hnd : (techs.map Prod.fst).Nodup)
    (hrank : ∀ k t, lookupT techs k = some t → ∀ p ∈ t.prerequisites,
        p ∈ techs.map Prod.fst → rank p < rank k) :
    GraphWF (wireEdges (newNodes techs)).1 rank := by
  have hnd0 : (nodeKeys (newNodes techs)).Nodup := by
    rw [newNodes_keys]
    exact hnd
  have inv := wireInv_wireEdges techs hnd0
  have hkeys : nodeKeys (wireEdges (newNodes techs)).1 = techs.map Prod.fst :=
    inv.keysEq.trans (newNodes_keys techs)
  refine ⟨?_, ?_, fun d dn h k hk => inv.depcl d dn k h hk, inv.mirror1, inv.mirror2, ?_⟩
  · rw [hkeys]
    exact hnd
  · intro k n h d hd
    exact (inv.depsOrig k n d h hd).2
  · intro k n h d hd
    obtain ⟨⟨n0, h0, hp⟩, hdk⟩ := inv.depsOrig k n d h hd
    rw [lookupN_newNodes] at h0
    cases ht : lookupT techs k with
    | none => rw [ht] at h0; cases h0
    | some t =>
      rw [ht] at h0
      injection h0 with h0
      refine hrank k t ht d ?_ ?_
      · rw [← h0] at hp
        exact hp
      · rw [← hkeys]
        exact hdk

theorem exists_level_zero (rank : String → Nat) (nodes : List (String × TechNode))
    (wf : GraphWF nodes rank)
    (hzero : ∀ k n, lookupN nodes k = some n → n.dependencies = [] → n.level = 0) :
    ∀ (r : Nat) (k : String) (n : TechNode), rank k = r → lookupN nodes k = some n →
    ∃ k2 n2, lookupN nodes k2 = some n2 ∧ n2.level = 0 := by
  intro r
  induction r using Nat.strong_induction_on with
  | _ r ih =>
    intro k n hr h
    cases hdeps : n.dependencies with
    | nil => exact ⟨k, n, h, hzero k n h hdeps⟩
    | cons d ds =>
      have hdm : d ∈ n.dependencies := by
        rw [hdeps]
        exact List.mem_cons_self d ds
      have hdk := wf.depsClosed k n h d hdm
      obtain ⟨dn, hdn⟩ := Option.isSome_iff_exists.mp ((lookupN_isSome_iff nodes d).mpr hdk)
      exact ih (rank d) (hr ▸ wf.rankLt k n h d hdm) d dn rfl hdn

/-- C1 (amended): on a technology set with duplicate-free keys whose resolved
prerequisite graph is acyclic, once the leveling loop of `NewTechTree`
returns, every node's level is either `max(dependency levels) + 1` (the node
was finalized on its first pop) or `0` (the node was popped before all its
dependencies were finalized — it is then marked visited, re-queued and
skipped for good — or was never reached); every node without dependencies,
in particular every technology with an empty prerequisite list, ends at
level `0`, and `GetMaxLevel` bounds every node level, equals `0` on the
empty set, and is attained by some node otherwise. -/
theorem newTechTree_levels (techs : List (String × Technology)) (rank : String → Nat)
    (fuel : Nat) (st' : LevelState)
    (hnd : (techs.map Prod.fst).Nodup)
    (hrank : ∀ k t, lookupT techs k = some t → ∀ p ∈ t.prerequisites,
        p ∈ techs.map Prod.fst → rank p < rank k)
    (hrun : newTechTree fuel techs = some st') :
    (∀ k n, lookupN st'.nodes k = some n →
        n.level = maxDepLevel st'.nodes n.dependencies + 1 ∨ n.level = 0) ∧
    (∀ k n, lookupN st'.nodes k = some n → n.dependencies = [] → n.level = 0) ∧
    (∀ k t, lookupT techs k = some t → t.prerequisites = [] →
        ∃ n, lookupN st'.nodes k = some n ∧ n.dependencies = [] ∧ n.level = 0) ∧
    (∀ k n, lookupN st'.nodes k = some n → n.level ≤ getMaxLevel st') ∧
    (techs = [] → getMaxLevel st' = 0) ∧
    (techs ≠ [] → ∃ k n, lookupN st'.nodes k = some n ∧ n.level = getMaxLevel st') := by
  have hnd0 : (nodeKeys (newNodes techs)).Nodup := by
    rw [newNodes_keys]
    exact hnd
  have invW := wireInv_wireEdges techs hnd0
  have hkeysW : nodeKeys (wireEdges (newNodes techs)).1 = techs.map Prod.fst :=
    invW.keysEq.trans (newNodes_keys techs)
  have wf0 : GraphWF (initialState techs).1.nodes rank := graphWF_wireEdges techs rank hnd hrank
  have inv0 : LevelInv (initialState techs).1 := levelInv_initial techs hnd
  obtain ⟨wf2, inv2, hq2⟩ := levelLoop_inv rank fuel (initialState techs).1 st' wf0 inv0 hrun
  have hframe := levelLoop_frame fuel (initialState techs).1 st' hrun
  have hzero : ∀ k n, lookupN st'.nodes k = some n → n.dependencies = [] → n.level = 0 := by
    intro k n h hdeps
    rcases inv2.lvlOr k n h with hl0 | ⟨_, _, hlv⟩
    · exact hl0
    · rw [hlv, hdeps]
      show (-1 : Int) + 1 = 0
      decide
  have hnodeSt : ∀ k, k ∈ techs.map Prod.fst → ∃ n n0, lookupN st'.nodes k = some n ∧
      lookupN (wireEdges (newNodes techs)).1 k = some n0 ∧ n.tech = n0.tech ∧
      n.dependencies = n0.dependencies := by
    intro k hk
    have hks : k ∈ nodeKeys (wireEdges (newNodes techs)).1 := by
      rw [hkeysW]
      exact hk
    obtain ⟨n0, hn0⟩ := Option.isSome_iff_exists.mp ((lookupN_isSome_iff _ k).mpr hks)
    have hn0i : lookupN (initialState techs).1.nodes k = some n0 := hn0
    have h9 := hframe k
    cases hsk : lookupN st'.nodes k with
    | none =>
      rw [hsk, hn0i] at h9
      simp at h9
    | some n =>
      rw [hsk, hn0i] at h9
      injection h9 with h9
      exact ⟨n, n0, rfl, hn0, congrArg Prod.fst h9, congrArg (fun p => p.2.1) h9⟩
  refine ⟨?_, hzero, ?_, ?_, ?_, ?_⟩
  · intro k n h
    rcases inv2.lvlOr k n h with hl0 | ⟨_, _, hlv⟩
    · exact Or.inr hl0
    · exact Or.inl hlv
  · intro k t hkt hpre
    obtain ⟨n, n0, hsk, hn0, htech, hdeps⟩ :=
      hnodeSt k (List.mem_map_of_mem Prod.fst (lookupT_mem techs k t hkt))
    have hdnil : n.dependencies = [] := by
      rw [hdeps]
      refine List.eq_nil_iff_forall_not_mem.mpr ?_
      intro d hd
      obtain ⟨⟨m0, hm0, hdp⟩, _⟩ := invW.depsOrig k n0 d hn0 hd
      rw [lookupN_newNodes, hkt] at hm0
      injection hm0 with hm0
      rw [← hm0] at hdp
      have hdp2 : d ∈ t.prerequisites := hdp
      rw [hpre] at hdp2
      cases hdp2
    exact ⟨n, hsk, hdnil, hzero k n hsk hdnil⟩
  · intro k n h
    exact inv2.maxUb k n h
  · intro hempty
    subst hempty
    rcases inv2.maxEx with h8 | ⟨k0, n0, h8, _, _⟩
    · exact h8
    · exfalso
      have h9 := hframe k0
      have hnil : lookupN (initialState ([] : List (String × Technology))).1.nodes k0 =
          none := rfl
      rw [h8, hnil] at h9
      simp at h9
  · intro hne
    rcases inv2.maxEx with h8 | ⟨k0, n0, h8a, _, h8c⟩
    · cases htc : techs with
      | nil => exact absurd htc hne
      | cons p ts =>
        obtain ⟨n, n0, hsk, _, _, _⟩ := hnodeSt p.1 (by
          rw [htc]
          exact List.mem_map_of_mem Prod.fst (List.mem_cons_self p ts))
        obtain ⟨k2, n2, hlk2, hl0⟩ :=
          exists_level_zero rank st'.nodes wf2 hzero (rank p.1) p.1 n rfl hsk
        refine ⟨k2, n2, hlk2, ?_⟩
        rw [hl0]
        exact h8.symm
    · exact ⟨k0, n0, h8a, h8c⟩

theorem rankC1_valid : ∀ k t, lookupT techsC1 k = some t → ∀ p ∈ t.prerequisites,
    p ∈ techsC1.map Prod.fst → rankC1 p < rankC1 k := by
  intro k t hk p hp hpm
  rw [techsC1, lookupT] at hk
  by_cases h1 : "a" = k
  · rw [if_pos h1] at hk
    injection hk with hk
    subst hk
    simp [techC1a] at hp
  · rw [if_neg h1, lookupT] at hk
    by_cases h2 : "b" = k
    · rw [if_pos h2] at hk
      injection hk with hk
      subst hk
      subst h2
      simp [techC1b] at hp
      subst hp
      decide
    · rw [if_neg h2, lookupT] at hk
      by_cases h3 : "c" = k
      · rw [if_pos h3] at hk
        injection hk with hk
        subst hk
        subst h3
        simp [techC1c] at hp
        rcases hp with rfl | rfl <;> decide
      · rw [if_neg h3] at hk
        cases hk

/-- C1 witness: on the concrete acyclic chain the loop finishes within fuel
10 and the prerequisite-free technology `a` gets level 0. -/
theorem newTechTree_levels_witness :
    (techsC1.map Prod.fst).Nodup ∧
    (∃ st', newTechTree 10 techsC1 = some st' ∧
      ∃ n, lookupN st'.nodes "a" = some n ∧ n.dependencies = [] ∧ n.level = 0) := by
  have hnd : (techsC1.map Prod.fst).Nodup := by decide
  obtain ⟨st', hst'⟩ : ∃ st', newTechTree 10 techsC1 = some st' := ⟨_, rfl⟩
  have h := newTechTree_levels techsC1 rankC1 10 st' hnd rankC1_valid hst'
  exact ⟨hnd, st', hst', h.2.2.1 "a" techC1a rfl rfl⟩

theorem rankC1x_valid : ∀ k t, lookupT techsC1x k = some t → ∀ p ∈ t.prerequisites,
    p ∈ techsC1x.map Prod.fst → rankC1x p < rankC1x k := by
  intro k t hk p hp hpm
  rw [techsC1x, lookupT] at hk
  by_cases h1 : "r1" = k
  · rw [if_pos h1] at hk
    injection hk with hk
    subst hk
    exact absurd hp (List.not_mem_nil p)
  · rw [if_neg h1, lookupT] at hk
    by_cases h2 : "r2" = k
    · rw [if_pos h2] at hk
      injection hk with hk
      subst hk
      exact absurd hp (List.not_mem_nil p)
    · rw [if_neg h2, lookupT] at hk
      by_cases h3 : "x" = k
      · rw [if_pos h3] at hk
        injection hk with hk
        subst hk
        subst h3
        have hp2 : p ∈ ["r1", "y"] := hp
        simp at hp2
        rcases hp2 with rfl | rfl <;> decide
      · rw [if_neg h3, lookupT] at hk
        by_cases h4 : "y" = k
        · rw [if_pos h4] at hk
          injection hk with hk
          subst hk
          subst h4
          have hp2 : p ∈ ["r2"] := hp
          simp at hp2
          subst hp2
          decide
        · rw [if_neg h4, lookupT] at hk
          by_cases h5 : "z" = k
          · rw [if_pos h5] at hk
            injection hk with hk
            subst hk
            subst h5
            have hp2 : p ∈ ["x"] := hp
            simp at hp2
            subst hp2
            decide
          · rw [if_neg h5] at hk
            cases hk

/-- C1 counterexample: the duplicate-free, rank-acyclic set `techsC1x` ends
with node `x` visited at level 0 although its dependency levels give
`maxDepLevel + 1 = 2`: `x` is popped while `y` is unfinished, marked
visited, re-queued and skipped for good, so the unconditional
`level = max(dependency levels) + 1` reading of the claim fails even on
acyclic input. -/
theorem newTechTree_levels_cex :
    (techsC1x.map Prod.fst).Nodup ∧
    (∀ k t, lookupT techsC1x k = some t → ∀ p ∈ t.prerequisites,
        p ∈ techsC1x.map Prod.fst → rankC1x p < rankC1x k) ∧
    ∃ st', newTechTree 20 techsC1x = some st' ∧
      ∃ nx, lookupN st'.nodes "x" = some nx ∧
        nx.dependencies = ["r1", "y"] ∧ nx.level = 0 ∧
        maxDepLevel st'.nodes nx.dependencies + 1 = 2 :=
  ⟨by decide, rankC1x_valid, _, rfl, _, rfl, rfl, rfl, rfl⟩

theorem levelLoop_some_queue : ∀ (fuel : Nat) (st st' : LevelState),
    levelLoop fuel st = some st' → st'.queue = [] := by
  intro fuel
  induction fuel with
  | zero => intro st st' h; cases h
  | succ fuel ih =>
    intro st st' h
    rw [levelLoop] at h
    cases hq : st.queue with
    | nil =>
      rw [hq] at h
      injection h with h
      subst h
      exact hq
    | cons k rest =>
      rw [hq] at h
      exact ih (levelStep st k rest) st' h

theorem levelLoop_term_aux : ∀ (u l : Nat) (st : LevelState),
    unvisitedCount st.nodes = u → st.queue.length = l →
    ∃ fuel st', levelLoop fuel st = some st' := by
  intro u
  induction u using Nat.strong_induction_on with
  | _ u ihu =>
  intro l
  induction l using Nat.strong_induction_on with
  | _ l ihl =>
  intro st hu hl
  cases hq : st.queue with
  | nil => exact ⟨1, st, by rw [levelLoop, hq]⟩
  | cons k rest =>
    have hlt : rest.length < l := by
      rw [hq, List.length_cons] at hl
      omega
    cases hlk : lookupN st.nodes k with
    | none =>
      have hstep := levelStep_none st k rest hlk
      have hu2 : unvisitedCount (levelStep st k rest).nodes = u := by
        rw [hstep]
        exact hu
      have hl2 : (levelStep st k rest).queue.length = rest.length := by
        rw [hstep]
      obtain ⟨fuel, st', hloop⟩ := ihl rest.length hlt (levelStep st k rest) hu2 hl2
      exact ⟨fuel + 1, st', by rw [levelLoop, hq]; exact hloop⟩
    | some node =>
      cases hvis : node.visited with
      | true =>
        have hstep := levelStep_visited st k rest node hlk hvis
        have hu2 : unvisitedCount (levelStep st k rest).nodes = u := by
          rw [hstep]
          exact hu
        have hl2 : (levelStep st k rest).queue.length = rest.length := by
          rw [hstep]
        obtain ⟨fuel, st', hloop⟩ := ihl rest.length hlt (levelStep st k rest) hu2 hl2
        exact ⟨fuel + 1, st', by rw [levelLoop, hq]; exact hloop⟩
      | false =>
        cases ha : allDepsVisited (updateN st.nodes k (fun m => { m with visited := true }))
            node.dependencies with
        | false =>
          have hstep := levelStep_requeue st k rest node hlk hvis ha
          have hu2 : unvisitedCount (levelStep st k rest).nodes < u := by
            rw [hstep, ← hu]
            exact unvisitedCount_mark_lt k (fun m => { m with visited := true })
              (fun m => rfl) st.nodes node hlk hvis
          obtain ⟨fuel, st', hloop⟩ := ihu _ hu2 (levelStep st k rest).queue.length
            (levelStep st k rest) rfl rfl
          exact ⟨fuel + 1, st', by rw [levelLoop, hq]; exact hloop⟩
        | true =>
          have hstep := levelStep_final st k rest node hlk hvis ha
          have hu2 : unvisitedCount (levelStep st k rest).nodes < u := by
            rw [hstep, ← hu]
            show unvisitedCount (updateN (updateN st.nodes k
                (fun m => { m with visited := true })) k
                (fun m => { m with level := maxDepLevel (updateN st.nodes k (fun m2 => { m2 with visited := true })) node.dependencies + 1 })) <
              unvisitedCount st.nodes
            rw [unvisitedCount_update_congr k (fun m => { m with level := maxDepLevel (updateN st.nodes k (fun m2 => { m2 with visited := true })) node.dependencies + 1 }) (fun m => rfl)]
            exact unvisitedCount_mark_lt k (fun m => { m with visited := true })
              (fun m => rfl) st.nodes node hlk hvis
          obtain ⟨fuel, st', hloop⟩ := ihu _ hu2 (levelStep st k rest).queue.length
            (levelStep st k rest) rfl rfl
          exact ⟨fuel + 1, st', by rw [levelLoop, hq]; exact hloop⟩

/-- C2 (amended): the leveling loop of `NewTechTree` terminates on every
technology set, acyclic or not, and the work queue empties: each pop either
drops an already-visited node or marks an unvisited one, so the number of
unvisited nodes and then the queue length decrease lexicographically.  (The
claim's further assertion — that every node reachable from the root set is
eventually popped with all its dependencies finalized — is refuted by the
counterexample: a node re-queued over an unfinished dependency is marked
visited and skipped on re-pop.) -/
theorem newTechTree_terminates (techs : List (String × Technology)) :
    ∃ fuel st', newTechTree fuel techs = some st' ∧ st'.queue = [] := by
  obtain ⟨fuel, st', hloop⟩ := levelLoop_term_aux
    (unvisitedCount (initialState techs).1.nodes) ((initialState techs).1.queue.length)
    (initialState techs).1 rfl rfl
  exact ⟨fuel, st', hloop, levelLoop_some_queue fuel (initialState techs).1 st' hloop⟩

/-- C2 counterexample: in `techsC1x` the node `z` is reachable from the root
`r1` through `x`, yet the loop ends with `z` unvisited: `x` is popped with
its dependency `y` unfinished, marked visited, re-queued and skipped on
re-pop without being finalized, so its dependent `z` is never enqueued —
refuting the claim that every node reachable from the root set is
eventually popped with all its dependencies finalized. -/
theorem newTechTree_unfinalized_cex :
    (techsC1x.map Prod.fst).Nodup ∧
    "r1" ∈ rootKeys (wireEdges (newNodes techsC1x)).1 ∧
    ∃ st', newTechTree 20 techsC1x = some st' ∧ st'.queue = [] ∧
      (∃ n1, lookupN st'.nodes "r1" = some n1 ∧ "x" ∈ n1.dependents) ∧
      (∃ nx, lookupN st'.nodes "x" = some nx ∧ "z" ∈ nx.dependents ∧
        nx.visited = true ∧ nx.level = 0 ∧ nx.dependencies ≠ []) ∧
      ∃ nz, lookupN st'.nodes "z" = some nz ∧ nz.visited = false :=
  ⟨by decide, by decide, _, rfl, rfl, ⟨_, rfl, by decide⟩,
    ⟨_, rfl, by decide, rfl, rfl, by decide⟩, _, rfl, rfl⟩

theorem newTechTree_cycle_terminates_cex :
    (∃ na, lookupN (initialState techsC3).1.nodes "a" = some na ∧
      na.dependencies = ["b"] ∧ na.visited = false) ∧
    (∃ nb, lookupN (initialState techsC3).1.nodes "b" = some nb ∧
      nb.dependencies = ["a"] ∧ nb.visited = false) ∧
    (initialState techsC3).1.queue = [] ∧
    newTechTree 1 techsC3 = some (initialState techsC3).1 :=
  ⟨⟨_, rfl, rfl, rfl⟩, ⟨_, rfl, rfl, rfl⟩, rfl, rfl⟩

/-- C3 (amended): a cycle disconnected from every root — for instance a pure
two-cycle, where every node has a dependency — leaves the root set and hence
the initial queue empty, so the leveling loop stops at once with every node
unvisited at level 0. -/
theorem levelLoop_no_roots_terminates (techs : List (String × Technology))
    (hnd : (techs.map Prod.fst).Nodup)
    (hroots : rootKeys (wireEdges (newNodes techs)).1 = []) :
    newTechTree 1 techs = some (initialState techs).1 ∧
    (initialState techs).1.queue = [] ∧
    ∀ k n, lookupN (initialState techs).1.nodes k = some n →
      n.visited = false ∧ n.level = 0 := by
  have hnd0 : (nodeKeys (newNodes techs)).Nodup := by
    rw [newNodes_keys]
    exact hnd
  have hq : (initialState techs).1.queue = [] := hroots
  refine ⟨?_, hq, ?_⟩
  · show levelLoop 1 (initialState techs).1 = some (initialState techs).1
    rw [levelLoop, hq]
  · intro k n h
    exact wireEdges_fresh_flags techs hnd0 k n h

/-- C3 witness: the pure two-cycle has duplicate-free keys and an empty root
set, so the loop returns at fuel 1 with node `a` unvisited at level 0. -/
theorem levelLoop_no_roots_terminates_witness :
    ((techsC3.map Prod.fst).Nodup ∧ rootKeys (wireEdges (newNodes techsC3)).1 = []) ∧
    newTechTree 1 techsC3 = some (initialState techsC3).1 ∧
    (∃ na, lookupN (initialState techsC3).1.nodes "a" = some na ∧
      na.visited = false ∧ na.level = 0) := by
  have hnd : (techsC3.map Prod.fst).Nodup := by decide
  have hroots : rootKeys (wireEdges (newNodes techsC3)).1 = [] := rfl
  have h := levelLoop_no_roots_terminates techsC3 hnd hroots
  refine ⟨⟨hnd, hroots⟩, h.1, ⟨_, rfl, h.2.2 "a" _ rfl⟩⟩

end Stellaris
